import Mathlib

/-!
Verification of the github access controller (registry/auth/github/access.go).

Go byte strings are modeled as Lean `String`s whose characters stand for
single bytes (code points below 256); the claims exercised here only involve
ASCII data, where this bridge agrees with Go's UTF-8 strings byte for byte.
Remote HTTP traffic is modeled by an oracle (`World`) fixing the response of
each outbound call; request construction is assumed to succeed, since the
method and URL are well-formed literals.
-/

deriving instance DecidableEq for Except

namespace GithubAuth

/-! ## String helpers mirroring the Go standard library -/

/-- strings.Split with a single-character separator. -/
def splitChars (sep : Char) : List Char → List (List Char)
  | [] => [[]]
  | c :: rest =>
    if c = sep then [] :: splitChars sep rest
    else
      match splitChars sep rest with
      | [] => [[c]]
      | g :: gs => (c :: g) :: gs

def goSplit (s : String) (sep : Char) : List String :=
  (splitChars sep s.data).map String.mk

/-- strings.HasPrefix. -/
def strStarts (s pre : String) : Bool :=
  pre.data.isPrefixOf s.data

/-- Dropping the first n characters; models strings.TrimPrefix after a
successful prefix check. -/
def goDrop (s : String) (n : Nat) : String :=
  String.mk (s.data.drop n)

def mapStr (f : Char → Char) (s : String) : String :=
  String.mk (s.data.map f)

/-- strings.ReplaceAll for single-character patterns. -/
def goStrReplaceAll (s : String) (a b : Char) : String :=
  mapStr (fun c => if c = a then b else c) s

/-- strings.TrimRight with cutset "/". -/
def goTrimRightSlash (s : String) : String :=
  String.mk ((s.data.reverse.dropWhile (fun c => c = '/')).reverse)

/-! ## base64 (encoding/base64, StdEncoding) -/

/-- The decode map of the standard base64 alphabet. -/
def b64CharVal (c : Char) : Option Nat :=
  if 'A' ≤ c ∧ c ≤ 'Z' then some (c.toNat - 65)
  else if 'a' ≤ c ∧ c ≤ 'z' then some (c.toNat - 71)
  else if '0' ≤ c ∧ c ≤ '9' then some (c.toNat + 4)
  else if c = '+' then some 62
  else if c = '/' then some 63
  else none

/-- Decoding of 4-character quanta, with '=' padding allowed only at the very
end; non-canonical trailing bits are ignored, as in Go's non-strict mode. -/
def decodeGroups : List Char → Option (List Nat)
  | [] => some []
  | c1 :: c2 :: c3 :: c4 :: rest =>
    match b64CharVal c1, b64CharVal c2 with
    | some v1, some v2 =>
      if c3 = '=' then
        if c4 = '=' ∧ rest = [] then some [v1 * 4 + v2 / 16] else none
      else
        match b64CharVal c3 with
        | some v3 =>
          if c4 = '=' then
            if rest = [] then some [v1 * 4 + v2 / 16, v2 % 16 * 16 + v3 / 4] else none
          else
            match b64CharVal c4 with
            | some v4 =>
              match decodeGroups rest with
              | some bs => some ((v1 * 4 + v2 / 16) :: (v2 % 16 * 16 + v3 / 4) :: (v3 % 4 * 64 + v4) :: bs)
              | none => none
            | none => none
        | none => none
    | _, _ => none
  | _ :: _ => none

/-- base64.StdEncoding.DecodeString. Go's decoder skips carriage returns and
newlines anywhere in the input; the decoded bytes are returned as characters
below 256. -/
def base64StdDecodeString (s : String) : Option String :=
  match decodeGroups (s.data.filter fun c => !(c == '\r' || c == '\n')) with
  | some bs => some (String.mk (bs.map Char.ofNat))
  | none => none

/-- base64URLDecode from access.go: pad by length mod 4, translate the
URL-safe alphabet to the standard one, then decode with StdEncoding. -/
def base64URLDecode (s : String) : Option String :=
  let s1 := if s.length % 4 = 2 then s ++ "==" else if s.length % 4 = 3 then s ++ "=" else s
  let s2 := goStrReplaceAll s1 '-' '+'
  let s3 := goStrReplaceAll s2 '_' '/'
  base64StdDecodeString s3

/-- The encode map of the standard base64 alphabet. -/
def b64ValChar (v : Nat) : Char :=
  if v < 26 then Char.ofNat (65 + v)
  else if v < 52 then Char.ofNat (71 + v)
  else if v < 62 then Char.ofNat (v - 4)
  else if v = 62 then '+'
  else '/'

/-- Modelled from the spec: standard base64 encoding of a byte sequence in
3-byte quanta with '=' padding (the token issuer is outside this repository;
the spec's round-trip property fixes the wire encoding). -/
def encodeGroups : List Nat → List Char
  | [] => []
  | [b1] => [b64ValChar (b1 / 4), b64ValChar (b1 % 4 * 16), '=', '=']
  | [b1, b2] => [b64ValChar (b1 / 4), b64ValChar (b1 % 4 * 16 + b2 / 16), b64ValChar (b2 % 16 * 4), '=']
  | b1 :: b2 :: b3 :: rest =>
    b64ValChar (b1 / 4) :: b64ValChar (b1 % 4 * 16 + b2 / 16) ::
      b64ValChar (b2 % 16 * 4 + b3 / 64) :: b64ValChar (b3 % 64) :: encodeGroups rest

/-- Translation from the standard alphabet to the URL-safe one. -/
def urlFromStd (c : Char) : Char :=
  if c = '+' then '-' else if c = '/' then '_' else c

/-- Modelled from the spec: unpadded base64url encoding of a byte sequence,
as the claims-token wire format requires for the middle segment. -/
def base64URLEncode (bytes : List Nat) : String :=
  String.mk (((encodeGroups bytes).filter fun c => !(c == '=')).map urlFromStd)

/-! ## JSON (encoding/json), restricted to what the access controller uses -/

def lbrace : Char := Char.ofNat 123

def rbrace : Char := Char.ofNat 125

/-- JSON values. A number records its integer part and whether the literal
was a plain integer (no fraction or exponent); strconv.ParseInt, used when
unmarshalling into an int64 field, only accepts plain integers. -/
inductive Json where
  | null
  | bool (b : Bool)
  | num (v : Int) (exact : Bool)
  | str (s : String)
  | arr (xs : List Json)
  | obj (fields : List (String × Json))

def jsonWs (c : Char) : Bool :=
  c == ' ' || c == '\t' || c == '\n' || c == '\r'

def skipWs : List Char → List Char
  | [] => []
  | c :: rest => if jsonWs c then skipWs rest else c :: rest

def hexDigitVal (c : Char) : Option Nat :=
  if '0' ≤ c ∧ c ≤ '9' then some (c.toNat - 48)
  else if 'a' ≤ c ∧ c ≤ 'f' then some (c.toNat - 87)
  else if 'A' ≤ c ∧ c ≤ 'F' then some (c.toNat - 55)
  else none

/-- Body of a JSON string literal after the opening quote; returns the
decoded characters and the input after the closing quote. Each \u escape is
decoded on its own, a surrogate value becoming U+FFFD; Go additionally
combines a valid surrogate pair into one code point, a case no claim here
exercises. -/
def parseStringBody : List Char → Option (List Char × List Char)
  | [] => none
  | c :: rest =>
    if c = '"' then some ([], rest)
    else if c = '\\' then
      match rest with
      | [] => none
      | e :: rest1 =>
        if e = 'u' then
          match rest1 with
          | a :: b :: c3 :: d :: rest2 =>
            match hexDigitVal a, hexDigitVal b, hexDigitVal c3, hexDigitVal d with
            | some ha, some hb, some hc, some hd =>
              let n := ha * 4096 + hb * 256 + hc * 16 + hd
              match parseStringBody rest2 with
              | some (cs, r) =>
                some ((if 0xD800 ≤ n ∧ n < 0xE000 then Char.ofNat 0xFFFD else Char.ofNat n) :: cs, r)
              | none => none
            | _, _, _, _ => none
          | _ => none
        else
          match
            (if e = '"' then some '"'
             else if e = '\\' then some '\\'
             else if e = '/' then some '/'
             else if e = 'b' then some (Char.ofNat 8)
             else if e = 'f' then some (Char.ofNat 12)
             else if e = 'n' then some '\n'
             else if e = 'r' then some '\r'
             else if e = 't' then some '\t'
             else none) with
          | some ch =>
            match parseStringBody rest1 with
            | some (cs, r) => some (ch :: cs, r)
            | none => none
          | none => none
    else if c.toNat < 32 then none
    else
      match parseStringBody rest with
      | some (cs, r) => some (c :: cs, r)
      | none => none

def takeDigits : List Char → List Char × List Char
  | [] => ([], [])
  | c :: rest =>
    if '0' ≤ c ∧ c ≤ '9' then
      let (ds, r) := takeDigits rest
      (c :: ds, r)
    else ([], c :: rest)

def digitsVal (l : List Char) : Nat :=
  l.foldl (fun acc c => acc * 10 + (c.toNat - 48)) 0

/-- The integer part of a JSON number: a single 0, or a nonzero digit
followed by more digits. -/
def parseIntPart : List Char → Option (Nat × List Char)
  | [] => none
  | c :: rest =>
    if c = '0' then some (0, rest)
    else if '1' ≤ c ∧ c ≤ '9' then
      let (ds, r) := takeDigits rest
      some (digitsVal (c :: ds), r)
    else none

def parseFracPart : List Char → Option (Bool × List Char)
  | [] => some (false, [])
  | c :: rest =>
    if c = '.' then
      match takeDigits rest with
      | ([], _) => none
      | (_ :: _, r) => some (true, r)
    else some (false, c :: rest)

def parseExpPart : List Char → Option (Bool × List Char)
  | [] => some (false, [])
  | c :: rest =>
    if c = 'e' ∨ c = 'E' then
      match rest with
      | [] => none
      | s :: r2 =>
        if s = '+' ∨ s = '-' then
          match takeDigits r2 with
          | ([], _) => none
          | (_ :: _, r3) => some (true, r3)
        else
          match takeDigits (s :: r2) with
          | ([], _) => none
          | (_ :: _, r3) => some (true, r3)
    else some (false, c :: rest)

def parseNumber (neg : Bool) (l : List Char) : Option (Json × List Char) :=
  match parseIntPart l with
  | none => none
  | some (n, r1) =>
    match parseFracPart r1 with
    | none => none
    | some (f1, r2) =>
      match parseExpPart r2 with
      | none => none
      | some (f2, r3) =>
        some (Json.num (if neg then -(n : Int) else (n : Int)) (!f1 && !f2), r3)

mutual

/-- One JSON value. The fuel bounds the nesting depth of composite values;
string, number and whitespace scanning are structural and need none. -/
def parseVal : Nat → List Char → Option (Json × List Char)
  | 0, _ => none
  | fuel + 1, l =>
    match skipWs l with
    | [] => none
    | c :: rest =>
      if c = '"' then
        match parseStringBody rest with
        | some (cs, r) => some (Json.str (String.mk cs), r)
        | none => none
      else if c = '-' then parseNumber true rest
      else if '0' ≤ c ∧ c ≤ '9' then parseNumber false (c :: rest)
      else if c = 't' then
        match rest with
        | 'r' :: 'u' :: 'e' :: r => some (Json.bool true, r)
        | _ => none
      else if c = 'f' then
        match rest with
        | 'a' :: 'l' :: 's' :: 'e' :: r => some (Json.bool false, r)
        | _ => none
      else if c = 'n' then
        match rest with
        | 'u' :: 'l' :: 'l' :: r => some (Json.null, r)
        | _ => none
      else if c = '[' then
        match skipWs rest with
        | [] => none
        | c2 :: r2 =>
          if c2 = ']' then some (Json.arr [], r2)
          else
            match parseItems fuel (c2 :: r2) with
            | some (xs, r) => some (Json.arr xs, r)
            | none => none
      else if c = lbrace then
        match skipWs rest with
        | [] => none
        | c2 :: r2 =>
          if c2 = rbrace then some (Json.obj [], r2)
          else
            match parseMembers fuel (c2 :: r2) with
            | some (fs, r) => some (Json.obj fs, r)
            | none => none
      else none

/-- Comma-separated array items up to the closing bracket. -/
def parseItems : Nat → List Char → Option (List Json × List Char)
  | 0, _ => none
  | fuel + 1, l =>
    match parseVal fuel l with
    | none => none
    | some (j, r1) =>
      match skipWs r1 with
      | [] => none
      | c :: r2 =>
        if c = ',' then
          match parseItems fuel r2 with
          | some (xs, r) => some (j :: xs, r)
          | none => none
        else if c = ']' then some ([j], r2)
        else none

/-- Comma-separated object members up to the closing brace; the caller has
skipped leading whitespace, so a key's opening quote comes first. -/
def parseMembers : Nat → List Char → Option (List (String × Json) × List Char)
  | 0, _ => none
  | fuel + 1, l =>
    match l with
    | [] => none
    | c :: rest =>
      if c = '"' then
        match parseStringBody rest with
        | none => none
        | some (kcs, r1) =>
          match skipWs r1 with
          | [] => none
          | c2 :: r2 =>
            if c2 = ':' then
              match parseVal fuel r2 with
              | none => none
              | some (j, r3) =>
                match skipWs r3 with
                | [] => none
                | c3 :: r4 =>
                  if c3 = ',' then
                    match skipWs r4 with
                    | [] => none
                    | c4 :: r5 =>
                      if c4 = '"' then
                        match parseMembers fuel (c4 :: r5) with
                        | some (fs, r) => some ((String.mk kcs, j) :: fs, r)
                        | none => none
                      else none
                  else if c3 = rbrace then some ([(String.mk kcs, j)], r4)
                  else none
            else none
      else none

end

/-- json.Unmarshal's scanning phase: one value, then only trailing
whitespace. The fuel bound input-length-plus-one always suffices, because
every level of value nesting consumes at least one character. -/
def jsonParse (s : String) : Option Json :=
  match parseVal (s.data.length + 1) s.data with
  | some (j, rest) => if skipWs rest = [] then some j else none
  | none => none

/-! ### Unmarshalling objects into the two structs used by the controller.
Go matches object keys to struct fields case-insensitively (ASCII here),
later duplicates overwrite earlier ones, a null value leaves the field
untouched, and a value of the wrong type makes Unmarshal report an error. -/

def asciiLower (c : Char) : Char :=
  if 'A' ≤ c ∧ c ≤ 'Z' then Char.ofNat (c.toNat + 32) else c

def keyMatches (k name : String) : Bool :=
  k.data.map asciiLower == name.data

/-- Value of a string field: last string value under a matching key, the
zero value "" when absent; none when some matching value has a type other
than string or null. -/
def strField (fields : List (String × Json)) (name : String) : Option String :=
  let ms := fields.filter fun kv => keyMatches kv.1 name
  if ms.all fun kv => match kv.2 with | Json.str _ => true | Json.null => true | _ => false then
    some
      (match (ms.filter fun kv => match kv.2 with | Json.str _ => true | _ => false).getLast? with
       | some (_, Json.str s) => s
       | _ => "")
  else none

/-- Value of an int64 field: analogous to strField; a number is accepted
only when its literal was a plain integer within the int64 range. -/
def intField (fields : List (String × Json)) (name : String) : Option Int :=
  let ms := fields.filter fun kv => keyMatches kv.1 name
  if ms.all fun kv =>
      match kv.2 with
      | Json.num v exact => exact && decide (-(2 ^ 63) ≤ v ∧ v < 2 ^ 63)
      | Json.null => true
      | _ => false then
    some
      (match (ms.filter fun kv => match kv.2 with | Json.num _ _ => true | _ => false).getLast? with
       | some (_, Json.num v _) => v
       | _ => 0)
  else none

/-! ## Data model of the access controller -/

/-- oidcTokenPayload from access.go (JSON field names sub, aud, repository,
actor, workflow, ref, exp, iat). -/
structure oidcTokenPayload where
  sub : String
  aud : String
  repository : String
  actor : String
  workflow : String
  ref : String
  exp : Int
  iat : Int
deriving DecidableEq

/-- githubUser from access.go (JSON field names login, id, type). -/
structure githubUser where
  login : String
  id : Int
  type : String
deriving DecidableEq

def payloadFromJson : Json → Option oidcTokenPayload
  | Json.obj fields => do
    let sub ← strField fields "sub"
    let aud ← strField fields "aud"
    let repository ← strField fields "repository"
    let actor ← strField fields "actor"
    let workflow ← strField fields "workflow"
    let ref ← strField fields "ref"
    let exp ← intField fields "exp"
    let iat ← intField fields "iat"
    some ⟨sub, aud, repository, actor, workflow, ref, exp, iat⟩
  | Json.null => some ⟨"", "", "", "", "", "", 0, 0⟩
  | _ => none

def githubUserFromJson : Json → Option githubUser
  | Json.obj fields => do
    let login ← strField fields "login"
    let id ← intField fields "id"
    let type ← strField fields "type"
    some ⟨login, id, type⟩
  | Json.null => some ⟨"", 0, ""⟩
  | _ => none

/-- The error wrapped by decodeOIDCToken's three failure returns; the
stdlib-produced causes wrapped at the last two sites are abstracted. -/
inductive DecodeErr where
  | malformedJWT
  | payloadDecodeFailed
  | payloadParseFailed
deriving DecidableEq

/-- The error values a challenge can carry. The first two are modelled from
the spec: they stand for the upstream package's ErrInvalidCredential and
ErrAuthenticationFailure sentinels, whose source is not part of this tree. -/
inductive AuthErr where
  | invalidCredential
  | authenticationFailure
  | invalidOIDCToken (e : DecodeErr)
  | invalidOIDCAudience
  | oidcTokenExpired
  | repositoryNotAllowed (repo : String)
deriving DecidableEq

def renderDecodeErr : DecodeErr → String
  | DecodeErr.malformedJWT => "invalid JWT token format"
  | DecodeErr.payloadDecodeFailed => "failed to decode token payload"
  | DecodeErr.payloadParseFailed => "failed to parse token payload"

def renderAuthErr : AuthErr → String
  | AuthErr.invalidCredential => "invalid authorization credential"
  | AuthErr.authenticationFailure => "authentication failure"
  | AuthErr.invalidOIDCToken e => "invalid OIDC token: " ++ renderDecodeErr e
  | AuthErr.invalidOIDCAudience => "invalid OIDC audience"
  | AuthErr.oidcTokenExpired => "OIDC token expired"
  | AuthErr.repositoryNotAllowed repo => "repository " ++ repo ++ " not allowed"

/-- The challenge type from access.go: realm plus wrapped cause. -/
structure challenge where
  realm : String
  err : AuthErr
deriving DecidableEq

/-- challenge.Error(): "github authentication required: %v" of the cause. -/
def challengeError (ch : challenge) : String :=
  "github authentication required: " ++ renderAuthErr ch.err

/-- challenge.SetHeaders: the WWW-Authenticate header value (realm quoting
by %q is modeled as plain quoting; realms here contain no escapes). -/
def challengeSetHeaders (ch : challenge) : String :=
  "Bearer realm=\"" ++ ch.realm ++ "\",service=\"registry\""

structure UserInfo where
  name : String
deriving DecidableEq

structure Grant where
  user : UserInfo
deriving DecidableEq

/-- accessController configuration state (the HTTP client is part of the
World oracle instead). -/
structure accessController where
  realm : String
  githubAPIURL : String
  allowedOrgs : List String
  allowedRepos : List String
  enableOIDC : Bool
  oidcAudience : String
deriving DecidableEq

/-- An HTTP response as observed by the controller: status code, and the
body unless reading it fails. -/
structure HttpResult where
  status : Nat
  body : Option String
deriving DecidableEq

/-- Oracle fixing the clock and every remote interaction of one Authorized
run: the GET {base}/user call (none = transport error) and the per-
organization membership call (none = transport error, some s = status). -/
structure World where
  now : Int
  userResp : Option HttpResult
  orgResp : String → Option Nat

/-! ## Operations from access.go -/

def decodeOIDCToken (token : String) : Except DecodeErr oidcTokenPayload :=
  match goSplit token '.' with
  | [_, p1, _] =>
    match base64URLDecode p1 with
    | none => Except.error DecodeErr.payloadDecodeFailed
    | some payloadBytes =>
      match jsonParse payloadBytes with
      | none => Except.error DecodeErr.payloadParseFailed
      | some j =>
        match payloadFromJson j with
        | none => Except.error DecodeErr.payloadParseFailed
        | some p => Except.ok p
  | _ => Except.error DecodeErr.malformedJWT

/-- checkOrgMembership: walk the configured organizations in order; only a
204 response confirms membership, anything else moves on to the next one. -/
def checkOrgMembership (w : World) : List String → Bool
  | [] => false
  | org :: rest =>
    if w.orgResp org = some 204 then true else checkOrgMembership w rest

def authenticateGitHub (ac : accessController) (w : World) (_token : String) :
    Except challenge Grant :=
  match w.userResp with
  | none => Except.error ⟨ac.realm, AuthErr.authenticationFailure⟩
  | some resp =>
    if resp.status ≠ 200 then Except.error ⟨ac.realm, AuthErr.authenticationFailure⟩
    else
      match resp.body with
      | none => Except.error ⟨ac.realm, AuthErr.authenticationFailure⟩
      | some body =>
        match (jsonParse body).bind githubUserFromJson with
        | none => Except.error ⟨ac.realm, AuthErr.authenticationFailure⟩
        | some user =>
          if 0 < ac.allowedOrgs.length then
            if ¬ checkOrgMembership w ac.allowedOrgs then
              Except.error ⟨ac.realm, AuthErr.authenticationFailure⟩
            else Except.ok ⟨⟨user.login⟩⟩
          else Except.ok ⟨⟨user.login⟩⟩

def authenticateOIDC (ac : accessController) (now : Int) (token : String) :
    Except challenge Grant :=
  match decodeOIDCToken token with
  | Except.error e => Except.error ⟨ac.realm, AuthErr.invalidOIDCToken e⟩
  | Except.ok payload =>
    if ac.oidcAudience ≠ "" ∧ payload.aud ≠ ac.oidcAudience then
      Except.error ⟨ac.realm, AuthErr.invalidOIDCAudience⟩
    else if payload.exp < now then
      Except.error ⟨ac.realm, AuthErr.oidcTokenExpired⟩
    else if 0 < ac.allowedRepos.length ∧ ¬ ac.allowedRepos.contains payload.repository then
      Except.error ⟨ac.realm, AuthErr.repositoryNotAllowed payload.repository⟩
    else Except.ok ⟨⟨payload.actor⟩⟩

/-- Authorized: extract the credential from the Authorization header (an
absent header reads as ""), then run the OIDC strategy first when enabled,
falling back to the GitHub API strategy. -/
def Authorized (ac : accessController) (w : World) (authHeader : String) :
    Except challenge Grant :=
  if authHeader = "" then Except.error ⟨ac.realm, AuthErr.invalidCredential⟩
  else
    match
      (if strStarts authHeader "Bearer " then some (goDrop authHeader 7)
       else if strStarts authHeader "token " then some (goDrop authHeader 6)
       else none) with
    | none => Except.error ⟨ac.realm, AuthErr.invalidCredential⟩
    | some token =>
      if token = "" then Except.error ⟨ac.realm, AuthErr.invalidCredential⟩
      else if ac.enableOIDC then
        match authenticateOIDC ac w.now token with
        | Except.ok grant => Except.ok grant
        | Except.error _ => authenticateGitHub ac w token
      else authenticateGitHub ac w token

/-- A value of Go's interface-typed configuration map. -/
inductive OptVal where
  | str (s : String)
  | boolean (b : Bool)
  | int (n : Int)
  | list (xs : List OptVal)

def Options := String → Option OptVal

/-- The strings among a []interface element list, in order. -/
def stringElems (xs : List OptVal) : List String :=
  xs.filterMap fun v => match v with | OptVal.str s => some s | _ => none

def newAccessController (options : Options) : Except String accessController :=
  match options "realm" with
  | some (OptVal.str realm) =>
    let ac0 : accessController :=
      { realm := realm, githubAPIURL := "https://api.github.com",
        allowedOrgs := [], allowedRepos := [], enableOIDC := false, oidcAudience := "" }
    let ac1 :=
      match options "api_url" with
      | some (OptVal.str u) =>
        if u ≠ "" then { ac0 with githubAPIURL := goTrimRightSlash u } else ac0
      | _ => ac0
    let ac2 :=
      match options "allowed_orgs" with
      | some (OptVal.list xs) => { ac1 with allowedOrgs := stringElems xs }
      | _ => ac1
    let ac3 :=
      match options "allowed_repos" with
      | some (OptVal.list xs) => { ac2 with allowedRepos := stringElems xs }
      | _ => ac2
    let ac4 :=
      match options "enable_oidc" with
      | some (OptVal.boolean b) => { ac3 with enableOIDC := b }
      | _ => ac3
    let ac5 :=
      match options "oidc_audience" with
      | some (OptVal.str a) => if a ≠ "" then { ac4 with oidcAudience := a } else ac4
      | _ => ac4
    Except.ok ac5
  | _ => Except.error "realm must be set for github access controller"

/-! ## Wire-format encoder for claims payloads

The token issuer is not part of this repository; the following definitions
are modelled from the spec's description of the wire shape ("JSON,
base64url-encoded in the middle dot-segment" with fields sub, aud,
repository, actor, workflow, ref, exp, iat). -/

def hexDigit (n : Nat) : Char :=
  if n < 10 then Char.ofNat (48 + n) else Char.ofNat (87 + n)

/-- Modelled from the spec: JSON escaping of one string character. -/
def jsonEscapeChar (c : Char) : List Char :=
  if c = '"' then ['\\', '"']
  else if c = '\\' then ['\\', '\\']
  else if c.toNat < 32 then ['\\', 'u', '0', '0', hexDigit (c.toNat / 16), hexDigit (c.toNat % 16)]
  else [c]

/-- Modelled from the spec: a JSON string literal. -/
def jsonQuote (s : String) : List Char :=
  '"' :: s.data.flatMap jsonEscapeChar ++ ['"']

def digitChar (n : Nat) : Char := Char.ofNat (48 + n)

def natDigits : Nat → Nat → List Char
  | 0, _ => []
  | fuel + 1, n =>
    if n < 10 then [digitChar n] else natDigits fuel (n / 10) ++ [digitChar (n % 10)]

def natDecimal (n : Nat) : List Char := natDigits (n + 1) n

/-- Modelled from the spec: decimal rendering of an int64 JSON number. -/
def intDecimal (v : Int) : List Char :=
  if v < 0 then '-' :: natDecimal (-v).toNat else natDecimal v.toNat

/-- Modelled from the spec: the serialization of one scalar JSON value
(the payload only carries strings and integers). -/
def serValue : Json → List Char
  | Json.str s => jsonQuote s
  | Json.num v _ => intDecimal v
  | _ => []

/-- Modelled from the spec: the serialization of an object's members in
order, with no interleaved whitespace, up to the closing brace. -/
def membersChars : List (String × Json) → List Char
  | [] => [rbrace]
  | [(k, v)] => jsonQuote k ++ ':' :: (serValue v ++ [rbrace])
  | (k, v) :: rest => jsonQuote k ++ ':' :: (serValue v ++ ',' :: membersChars rest)

/-- The payload's JSON members, in declared field order under the declared
json tags. -/
def payloadFields (p : oidcTokenPayload) : List (String × Json) :=
  [("sub", Json.str p.sub), ("aud", Json.str p.aud),
   ("repository", Json.str p.repository), ("actor", Json.str p.actor),
   ("workflow", Json.str p.workflow), ("ref", Json.str p.ref),
   ("exp", Json.num p.exp true), ("iat", Json.num p.iat true)]

/-- Modelled from the spec: the JSON serialization of a ClaimsPayload. -/
def payloadJsonChars (p : oidcTokenPayload) : List Char :=
  lbrace :: membersChars (payloadFields p)

/-- The JSON value the serialization above denotes. -/
def payloadJson (p : oidcTokenPayload) : Json :=
  Json.obj (payloadFields p)


/-- Modelled from the spec: the middle dot-segment carrying a
ClaimsPayload. -/
def encodeClaimsSegment (p : oidcTokenPayload) : String :=
  base64URLEncode ((payloadJsonChars p).map Char.toNat)

/-- Characters that serialize to themselves and need no UTF-8 care:
printable ASCII other than quote and backslash. -/
def safeChar (c : Char) : Prop :=
  32 ≤ c.toNat ∧ c.toNat ≤ 126 ∧ c ≠ '"' ∧ c ≠ '\\'

instance (c : Char) : Decidable (safeChar c) := by
  unfold safeChar
  infer_instance

def safeStr (s : String) : Prop := ∀ c ∈ s.data, safeChar c

instance (s : String) : Decidable (safeStr s) := by
  unfold safeStr
  exact List.decidableBAll _ _

def int64Range (v : Int) : Prop := -(2 ^ 63) ≤ v ∧ v < 2 ^ 63

instance (v : Int) : Decidable (int64Range v) := by
  unfold int64Range
  infer_instance

/-- Payloads in the fragment where the byte-for-byte string model is exact:
all string fields printable ASCII without escapes, timestamps in int64. -/
def safePayload (p : oidcTokenPayload) : Prop :=
  safeStr p.sub ∧ safeStr p.aud ∧ safeStr p.repository ∧ safeStr p.actor ∧
    safeStr p.workflow ∧ safeStr p.ref ∧ int64Range p.exp ∧ int64Range p.iat

instance (p : oidcTokenPayload) : Decidable (safePayload p) := by
  unfold safePayload
  infer_instance

/-- Values the serializer emits and the parser reads back unchanged:
escape-free strings, and numbers from plain-integer literals. -/
def serOk : Json → Prop
  | Json.str s => safeStr s
  | Json.num _ e => e = true
  | _ => False

/-- The padding characters base64URLDecode appends for a given input
length. -/
def padChars (n : Nat) : List Char :=
  if n % 4 = 2 then ['=', '='] else if n % 4 = 3 then ['='] else []

/-- A run of '=' padding characters. -/
def padStr (k : Nat) : String :=
  String.mk (List.replicate k '=')

/-! ## Concrete fixtures used by counterexamples and witnesses -/

def optsOnlyRealm (r : String) : Options :=
  fun k => if k = "realm" then some (OptVal.str r) else none

def acOidc : accessController :=
  ⟨"test-realm", "https://api.github.com", [], [], true, ""⟩

def acOrgRestricted : accessController :=
  ⟨"test-realm", "https://api.github.com", ["acme"], [], true, ""⟩

def acNoOidc : accessController :=
  ⟨"r", "https://api.github.com", [], [], false, ""⟩

def acTwoOrgs : accessController :=
  ⟨"r", "https://api.github.com", ["a", "b"], [], false, ""⟩

/-- Remote oracle: profile call returns 200 with user alice, membership
calls all return 404, clock at epoch 0. -/
def wAlice : World :=
  ⟨0, some ⟨200, some "\x7b\"login\":\"alice\"\x7d"⟩, fun _ => some 404⟩

/-- Remote oracle: profile call fails at the transport level, membership
calls all return 404, clock at 1700000000. -/
def wDown : World :=
  ⟨1700000000, none, fun _ => some 404⟩

/-- Remote oracle: profile call returns 200 with user bob, membership calls
all return 404. -/
def wBob : World :=
  ⟨0, some ⟨200, some "\x7b\"login\":\"bob\"\x7d"⟩, fun _ => some 404⟩

/-- base64url of the JSON for pExpired (exp -5, so expired at any positive
clock). -/
def segExpired : String :=
  "eyJzdWIiOiJzIiwiYXVkIjoiIiwicmVwb3NpdG9yeSI6Im93bmVyL3JlcG8iLCJhY3RvciI6Im9jdG8iLCJ3b3JrZmxvdyI6IiIsInJlZiI6IiIsImV4cCI6LTUsImlhdCI6LTEwfQ"

def tokExpired : String := "h." ++ segExpired ++ ".s"

def pExpired : oidcTokenPayload := ⟨"s", "", "owner/repo", "octo", "", "", -5, -10⟩

/-- base64url of the JSON for pFresh (exp 1700003600). -/
def segFresh : String :=
  "eyJzdWIiOiJyZXBvOm93bmVyL3JlcG86cmVmOnJlZnMvaGVhZHMvbWFpbiIsImF1ZCI6Imh0dHBzOi8vZXhhbXBsZS5jb20iLCJyZXBvc2l0b3J5Ijoib3duZXIvcmVwbyIsImFjdG9yIjoidGVzdHVzZXIiLCJ3b3JrZmxvdyI6IkNJIiwicmVmIjoicmVmcy9oZWFkcy9tYWluIiwiZXhwIjoxNzAwMDAzNjAwLCJpYXQiOjE3MDAwMDAwMDB9"

def tokFresh : String := "eyJhbGciOiJSUzI1NiIsInR5cCI6IkpXVCJ9." ++ segFresh ++ ".fake-signature"

def pFresh : oidcTokenPayload :=
  ⟨"repo:owner/repo:ref:refs/heads/main", "https://example.com", "owner/repo",
    "testuser", "CI", "refs/heads/main", 1700003600, 1700000000⟩

/-! # Theorems -/

set_option maxRecDepth 100000

/-! ## Header extraction -/

theorem strData_append (s t : String) : (s ++ t).data = s.data ++ t.data := rfl

theorem bearer_ne (t : String) : "Bearer " ++ t ≠ "" := by
  intro h
  have h2 := congrArg String.data h
  rw [strData_append] at h2
  exact absurd (List.append_eq_nil.mp h2).1 (by decide)

theorem tokenpre_ne (t : String) : "token " ++ t ≠ "" := by
  intro h
  have h2 := congrArg String.data h
  rw [strData_append] at h2
  exact absurd (List.append_eq_nil.mp h2).1 (by decide)

theorem isPre_append (l1 l2 : List Char) : l1.isPrefixOf (l1 ++ l2) = true := by
  induction l1 with
  | nil => simp [List.isPrefixOf]
  | cons a as ih => simp [List.isPrefixOf, ih]

theorem starts_bearer (t : String) : strStarts ("Bearer " ++ t) "Bearer " = true := by
  simp only [strStarts, strData_append]
  exact isPre_append _ _

theorem starts_token (t : String) : strStarts ("token " ++ t) "token " = true := by
  simp only [strStarts, strData_append]
  exact isPre_append _ _

theorem token_not_bearer (t : String) : strStarts ("token " ++ t) "Bearer " = false := by
  cases t
  rfl

theorem drop_bearer (t : String) : goDrop ("Bearer " ++ t) 7 = t := by
  cases t
  rfl

theorem drop_token (t : String) : goDrop ("token " ++ t) 6 = t := by
  cases t
  rfl

/-- Authorized after a successful Bearer extraction. -/
theorem authorizedBearer (ac : accessController) (w : World) (t : String) (ht : t ≠ "") :
    Authorized ac w ("Bearer " ++ t) =
      if ac.enableOIDC then
        match authenticateOIDC ac w.now t with
        | Except.ok g => Except.ok g
        | Except.error _ => authenticateGitHub ac w t
      else authenticateGitHub ac w t := by
  unfold Authorized
  rw [if_neg (bearer_ne t), starts_bearer]
  simp [drop_bearer, ht]

/-- Authorized after a successful token-scheme extraction. -/
theorem authorizedToken (ac : accessController) (w : World) (t : String) (ht : t ≠ "") :
    Authorized ac w ("token " ++ t) =
      if ac.enableOIDC then
        match authenticateOIDC ac w.now t with
        | Except.ok g => Except.ok g
        | Except.error _ => authenticateGitHub ac w t
      else authenticateGitHub ac w t := by
  unfold Authorized
  rw [if_neg (tokenpre_ne t), token_not_bearer, starts_token]
  simp [drop_token, ht]

/-- Every failure of the GitHub API strategy is the realm's
authentication-failure challenge. -/
theorem agh_error_shape (ac : accessController) (w : World) (tok : String) (e : challenge) :
    authenticateGitHub ac w tok = Except.error e →
    e = ⟨ac.realm, AuthErr.authenticationFailure⟩ := by
  unfold authenticateGitHub
  split <;> intro h
  · exact (Except.error.inj h).symm
  · split at h
    · exact (Except.error.inj h).symm
    · split at h
      · exact (Except.error.inj h).symm
      · split at h
        · exact (Except.error.inj h).symm
        · split at h
          · split at h
            · exact (Except.error.inj h).symm
            · cases h
          · cases h

/-- The OIDC strategy never fails with the credential-extraction error. -/
theorem aoidc_error_shape (ac : accessController) (now : Int) (tok : String) (e : challenge) :
    authenticateOIDC ac now tok = Except.error e → e.err ≠ AuthErr.invalidCredential := by
  unfold authenticateOIDC
  split <;> intro h
  · cases Except.error.inj h
    simp
  · split at h
    · cases Except.error.inj h
      simp
    · split at h
      · cases Except.error.inj h
        simp
      · split at h
        · cases Except.error.inj h
          simp
        · cases h

/-- C4: strategy order of the engine. With claims verification enabled, a
claims success is returned as is and remote verification is not consulted;
on claims failure, or with claims disabled, the result is that of the
remote GitHub strategy. -/
theorem C4_thm : ∀ (ac : accessController) (w : World) (t : String), t ≠ "" →
    (ac.enableOIDC = true → ∀ g, authenticateOIDC ac w.now t = Except.ok g →
      Authorized ac w ("Bearer " ++ t) = Except.ok g)
    ∧ (ac.enableOIDC = true → ∀ e, authenticateOIDC ac w.now t = Except.error e →
      Authorized ac w ("Bearer " ++ t) = authenticateGitHub ac w t)
    ∧ (ac.enableOIDC = false →
      Authorized ac w ("Bearer " ++ t) = authenticateGitHub ac w t) := by
  intro ac w t ht
  refine ⟨?_, ?_, ?_⟩
  · intro hoidc g hg
    rw [authorizedBearer ac w t ht, if_pos hoidc, hg]
  · intro hoidc e he
    rw [authorizedBearer ac w t ht, if_pos hoidc, he]
  · intro hoidc
    rw [authorizedBearer ac w t ht, hoidc]
    simp

theorem C4_witness :
    Authorized acOidc wAlice ("Bearer " ++ tokExpired) =
      authenticateGitHub acOidc wAlice tokExpired :=
  (C4_thm acOidc wAlice tokExpired (by decide)).2.1 rfl
    ⟨"test-realm", AuthErr.oidcTokenExpired⟩ (by decide)

/-- C7: credential extraction. A missing header, an unrecognized scheme, or
an empty token after the prefix each fail with the invalid-credential
challenge; a non-empty token under either recognized prefix gets past
extraction, whose challenge is never produced downstream. -/
theorem C7_thm : ∀ (ac : accessController) (w : World),
    Authorized ac w "" = Except.error ⟨ac.realm, AuthErr.invalidCredential⟩
    ∧ (∀ hdr : String, hdr ≠ "" → strStarts hdr "Bearer " = false →
      strStarts hdr "token " = false →
      Authorized ac w hdr = Except.error ⟨ac.realm, AuthErr.invalidCredential⟩)
    ∧ Authorized ac w "Bearer " = Except.error ⟨ac.realm, AuthErr.invalidCredential⟩
    ∧ Authorized ac w "token " = Except.error ⟨ac.realm, AuthErr.invalidCredential⟩
    ∧ (∀ t : String, t ≠ "" →
      Authorized ac w ("Bearer " ++ t) ≠ Except.error ⟨ac.realm, AuthErr.invalidCredential⟩
      ∧ Authorized ac w ("token " ++ t) ≠ Except.error ⟨ac.realm, AuthErr.invalidCredential⟩) := by
  intro ac w
  refine ⟨rfl, ?_, rfl, rfl, ?_⟩
  · intro hdr hne hb htk
    unfold Authorized
    rw [if_neg hne, hb, htk]
    simp
  · intro t ht
    have noInvalid :
        ∀ r : Except challenge Grant,
          (if ac.enableOIDC then
            match authenticateOIDC ac w.now t with
            | Except.ok g => Except.ok g
            | Except.error _ => authenticateGitHub ac w t
          else authenticateGitHub ac w t) = r →
          r ≠ Except.error ⟨ac.realm, AuthErr.invalidCredential⟩ := by
      intro r hr
      split at hr
      · split at hr
        · rw [← hr]
          intro hcon
          cases hcon
        · rw [← hr]
          intro hcon
          have := agh_error_shape ac w t _ hcon
          cases this
      · rw [← hr]
        intro hcon
        have := agh_error_shape ac w t _ hcon
        cases this
    constructor
    · rw [authorizedBearer ac w t ht]
      exact noInvalid _ rfl
    · rw [authorizedToken ac w t ht]
      exact noInvalid _ rfl

theorem C7_witness :
    Authorized acNoOidc wAlice "Basic xyz" =
      Except.error ⟨"r", AuthErr.invalidCredential⟩ :=
  (C7_thm acNoOidc wAlice).2.1 "Basic xyz" (by decide) (by decide) (by decide)

/-- C8 as stated is refuted: two failing runs with the same realm but
different internal causes render different Error() strings. -/
theorem C8_counterexample :
    Authorized acNoOidc wDown "" = Except.error ⟨"r", AuthErr.invalidCredential⟩
    ∧ Authorized acNoOidc wDown "Bearer x" = Except.error ⟨"r", AuthErr.authenticationFailure⟩
    ∧ challengeError ⟨"r", AuthErr.invalidCredential⟩ ≠
      challengeError ⟨"r", AuthErr.authenticationFailure⟩ := by
  refine ⟨by decide, by decide, by decide⟩

/-- C8 amended: only the WWW-Authenticate header is uniform across failure
causes; it is a function of the realm alone. -/
theorem C8_amended : ∀ c1 c2 : challenge, c1.realm = c2.realm →
    challengeSetHeaders c1 = challengeSetHeaders c2 := by
  intro c1 c2 h
  unfold challengeSetHeaders
  rw [h]

theorem C8_witness :
    challengeSetHeaders ⟨"r", AuthErr.invalidCredential⟩ =
      challengeSetHeaders ⟨"r", AuthErr.oidcTokenExpired⟩ :=
  C8_amended _ _ rfl

/-- Unfolding of the OIDC strategy once the token decodes. -/
theorem aoidcUnfold (ac : accessController) (now : Int) (token : String)
    (p : oidcTokenPayload) (hdec : decodeOIDCToken token = Except.ok p) :
    authenticateOIDC ac now token =
      if ac.oidcAudience ≠ "" ∧ p.aud ≠ ac.oidcAudience then
        Except.error ⟨ac.realm, AuthErr.invalidOIDCAudience⟩
      else if p.exp < now then
        Except.error ⟨ac.realm, AuthErr.oidcTokenExpired⟩
      else if 0 < ac.allowedRepos.length ∧ ¬ ac.allowedRepos.contains p.repository then
        Except.error ⟨ac.realm, AuthErr.repositoryNotAllowed p.repository⟩
      else Except.ok ⟨⟨p.actor⟩⟩ := by
  unfold authenticateOIDC
  rw [hdec]

/-- The audience guard does not fire when the audience is unconstrained or
matches. -/
theorem audGuardFalse (ac : accessController) (p : oidcTokenPayload)
    (haud : ac.oidcAudience = "" ∨ p.aud = ac.oidcAudience) :
    ¬ (ac.oidcAudience ≠ "" ∧ p.aud ≠ ac.oidcAudience) := by
  rcases haud with h | h
  · exact fun hcon => hcon.1 h
  · exact fun hcon => hcon.2 h

/-- The repository guard does not fire when the allow-list is empty or
contains the payload repository. -/
theorem repoGuardFalse (ac : accessController) (p : oidcTokenPayload)
    (hrepo : ac.allowedRepos = [] ∨ ac.allowedRepos.contains p.repository = true) :
    ¬ (0 < ac.allowedRepos.length ∧ ¬ ac.allowedRepos.contains p.repository) := by
  rcases hrepo with h | h
  · intro hcon
    rw [h] at hcon
    exact absurd hcon.1 (by simp)
  · intro hcon
    exact hcon.2 h

/-- C5: organization membership. Membership holds exactly when some
configured organization answers 204; the walk confirms on a leading 204,
skips past any other leading answer (other status or transport error), and
when the profile call succeeded but no organization confirms, the GitHub
strategy fails. -/
theorem C5_thm :
    (∀ (w : World) (orgs : List String),
      checkOrgMembership w orgs = true ↔ ∃ org ∈ orgs, w.orgResp org = some 204)
    ∧ (∀ (w : World) (org : String) (rest : List String),
      w.orgResp org = some 204 → checkOrgMembership w (org :: rest) = true)
    ∧ (∀ (w : World) (org : String) (rest : List String),
      w.orgResp org ≠ some 204 →
      checkOrgMembership w (org :: rest) = checkOrgMembership w rest)
    ∧ (∀ (ac : accessController) (w : World) (token body : String) (user : githubUser),
      ac.allowedOrgs ≠ [] →
      w.userResp = some ⟨200, some body⟩ →
      (jsonParse body).bind githubUserFromJson = some user →
      checkOrgMembership w ac.allowedOrgs = false →
      authenticateGitHub ac w token =
        Except.error ⟨ac.realm, AuthErr.authenticationFailure⟩) := by
  refine ⟨?_, ?_, ?_, ?_⟩
  · intro w orgs
    induction orgs with
    | nil => simp [checkOrgMembership]
    | cons org rest ih =>
      by_cases h : w.orgResp org = some 204
      · simp [checkOrgMembership, h]
      · simp [checkOrgMembership, h, ih]
  · intro w org rest h
    simp [checkOrgMembership, h]
  · intro w org rest h
    simp [checkOrgMembership, h]
  · intro ac w token body user horgs hresp hparse hmem
    unfold authenticateGitHub
    rw [hresp]
    simp only [hparse]
    have hlen : 0 < ac.allowedOrgs.length := by
      cases hl : ac.allowedOrgs with
      | nil => exact absurd hl horgs
      | cons a as => simp [hl]
    simp [hlen, hmem]

theorem C5_witness :
    authenticateGitHub acTwoOrgs wBob "tk" =
      Except.error ⟨"r", AuthErr.authenticationFailure⟩ :=
  C5_thm.2.2.2 acTwoOrgs wBob "tk" "\x7b\"login\":\"bob\"\x7d" ⟨"bob", 0, ""⟩
    (by decide) (by decide) (by decide) (by decide)

/-- C6 as stated is refuted: a realm given as the empty string is accepted
by the constructor, which only requires the option to be present and a
string. -/
theorem C6_counterexample :
    newAccessController (optsOnlyRealm "") =
      Except.ok ⟨"", "https://api.github.com", [], [], false, ""⟩ := by
  decide

/-- C6 amended: construction succeeds exactly when the realm option is
present and a string (an empty string is accepted); every other field is
optional, and a realm-only configuration gets the documented defaults. -/
theorem C6_amended :
    (∀ opts : Options,
      (∃ ac, newAccessController opts = Except.ok ac) ↔
        ∃ r, opts "realm" = some (OptVal.str r))
    ∧ (∀ r : String, newAccessController (optsOnlyRealm r) =
        Except.ok ⟨r, "https://api.github.com", [], [], false, ""⟩) := by
  constructor
  · intro opts
    constructor
    · intro ⟨ac, hac⟩
      unfold newAccessController at hac
      cases h : opts "realm" with
      | none => rw [h] at hac; cases hac
      | some v =>
        cases v with
        | str r => exact ⟨r, rfl⟩
        | boolean b => rw [h] at hac; cases hac
        | int n => rw [h] at hac; cases hac
        | list xs => rw [h] at hac; cases hac
    · intro ⟨r, hr⟩
      unfold newAccessController
      rw [hr]
      exact ⟨_, rfl⟩
  · intro r
    rfl

theorem C6_witness :
    newAccessController (optsOnlyRealm "example.com") =
      Except.ok ⟨"example.com", "https://api.github.com", [], [], false, ""⟩ :=
  C6_amended.2 "example.com"

/-- C2 as stated is refuted: with a non-empty organization allow-list, a
valid claims token is granted although no membership call confirms anything
(here every membership probe answers 404 and the profile endpoint is even
unreachable). -/
theorem C2_counterexample :
    Authorized acOrgRestricted wDown ("Bearer " ++ tokFresh) =
      Except.ok ⟨⟨"testuser"⟩⟩ := by
  decide

/-- C2 amended: the organization restriction binds only the remote GitHub
strategy, which never grants when no configured organization confirms
membership; the claims strategy is independent of the allow-list. -/
theorem C2_amended :
    (∀ (ac : accessController) (w : World) (token : String),
      ac.allowedOrgs ≠ [] → checkOrgMembership w ac.allowedOrgs = false →
      ∀ g, authenticateGitHub ac w token ≠ Except.ok g)
    ∧ (∀ (ac : accessController) (orgs : List String) (now : Int) (token : String),
      authenticateOIDC { ac with allowedOrgs := orgs } now token =
        authenticateOIDC ac now token) := by
  constructor
  · intro ac w token horgs hmem g hok
    have hlen : 0 < ac.allowedOrgs.length := by
      cases hl : ac.allowedOrgs with
      | nil => exact absurd hl horgs
      | cons a as => simp [hl]
    unfold authenticateGitHub at hok
    split at hok
    · cases hok
    · split at hok
      · cases hok
      · split at hok
        · cases hok
        · split at hok
          · cases hok
          · simp [hlen, hmem] at hok
  · intro ac orgs now token
    rfl

theorem C2_witness :
    ∀ g, authenticateGitHub acTwoOrgs wBob "tk" ≠ Except.ok g :=
  C2_amended.1 acTwoOrgs wBob "tk" (by decide) (by decide)

/-- C1 as stated is refuted: an expired claims token does not make
Authorized fail with TokenExpired; the engine falls back to remote
verification, which here grants as user alice. -/
theorem C1_counterexample :
    Authorized acOidc wAlice ("Bearer " ++ tokExpired) = Except.ok ⟨⟨"alice"⟩⟩ := by
  decide

/-- C1 amended: a claims token with expiry strictly below the clock makes
the claims verifier itself fail with the token-expired challenge; a failed
claims verification sends Authorized to the remote strategy instead of
failing; and a token whose expiry equals the clock passes the expiry
check. -/
theorem C1_amended :
    (∀ (ac : accessController) (now : Int) (token : String) (p : oidcTokenPayload),
      decodeOIDCToken token = Except.ok p →
      (ac.oidcAudience = "" ∨ p.aud = ac.oidcAudience) →
      p.exp < now →
      authenticateOIDC ac now token = Except.error ⟨ac.realm, AuthErr.oidcTokenExpired⟩)
    ∧ (∀ (ac : accessController) (w : World) (t : String),
      ac.enableOIDC = true → t ≠ "" →
      (∃ e, authenticateOIDC ac w.now t = Except.error e) →
      Authorized ac w ("Bearer " ++ t) = authenticateGitHub ac w t)
    ∧ (∀ (ac : accessController) (now : Int) (token : String) (p : oidcTokenPayload),
      decodeOIDCToken token = Except.ok p →
      (ac.oidcAudience = "" ∨ p.aud = ac.oidcAudience) →
      p.exp = now →
      (ac.allowedRepos = [] ∨ ac.allowedRepos.contains p.repository = true) →
      authenticateOIDC ac now token = Except.ok ⟨⟨p.actor⟩⟩) := by
  refine ⟨?_, ?_, ?_⟩
  · intro ac now token p hdec haud hexp
    rw [aoidcUnfold ac now token p hdec, if_neg (audGuardFalse ac p haud), if_pos hexp]
  · intro ac w t hoidc ht ⟨e, he⟩
    rw [authorizedBearer ac w t ht, if_pos hoidc, he]
  · intro ac now token p hdec haud hexp hrepo
    rw [aoidcUnfold ac now token p hdec, if_neg (audGuardFalse ac p haud),
      if_neg (by omega), if_neg (repoGuardFalse ac p hrepo)]

theorem C1_witness :
    authenticateOIDC acOidc 0 tokExpired =
      Except.error ⟨"test-realm", AuthErr.oidcTokenExpired⟩ :=
  C1_amended.1 acOidc 0 tokExpired pExpired (by decide) (Or.inl rfl) (by decide)

/-- C3: a well-formed claims token that is unexpired and satisfies the
audience and repository constraints is granted with the payload's actor as
principal, through the public Authorized operation. -/
theorem C3_thm :
    ∀ (ac : accessController) (w : World) (token : String) (p : oidcTokenPayload),
    ac.enableOIDC = true →
    decodeOIDCToken token = Except.ok p →
    (ac.oidcAudience = "" ∨ p.aud = ac.oidcAudience) →
    w.now < p.exp →
    (ac.allowedRepos = [] ∨ ac.allowedRepos.contains p.repository = true) →
    Authorized ac w ("Bearer " ++ token) = Except.ok ⟨⟨p.actor⟩⟩ := by
  intro ac w token p hoidc hdec haud hexp hrepo
  have ht : token ≠ "" := by
    intro h
    rw [h] at hdec
    cases hdec
  have hOk : authenticateOIDC ac w.now token = Except.ok ⟨⟨p.actor⟩⟩ := by
    rw [aoidcUnfold ac w.now token p hdec, if_neg (audGuardFalse ac p haud),
      if_neg (by omega), if_neg (repoGuardFalse ac p hrepo)]
  rw [authorizedBearer ac w token ht, if_pos hoidc, hOk]

theorem C3_witness :
    Authorized acOidc ⟨1700000000, none, fun _ => none⟩ ("Bearer " ++ tokFresh) =
      Except.ok ⟨⟨"testuser"⟩⟩ :=
  C3_thm acOidc ⟨1700000000, none, fun _ => none⟩ tokFresh pFresh rfl (by decide)
    (Or.inl rfl) (by decide) (Or.inl rfl)

/-! ## C10: tolerant base64 decoding -/

theorem strLen (s : String) : s.length = s.data.length := rfl

theorem dataMk (l : List Char) : (String.mk l).data = l := rfl

theorem strExt (a b : String) (h : a.data = b.data) : a = b := by
  cases a
  cases b
  cases h
  rfl

/-- Successful quantum decoding needs an input length divisible by 4. -/
theorem decodeGroups_len : ∀ (l : List Char) (bs : List Nat),
    decodeGroups l = some bs → l.length % 4 = 0
  | [], _, _ => by simp
  | [c1], _, h => by simp [decodeGroups] at h
  | [c1, c2], _, h => by simp [decodeGroups] at h
  | [c1, c2, c3], _, h => by simp [decodeGroups] at h
  | c1 :: c2 :: c3 :: c4 :: rest, bs, h => by
    simp only [decodeGroups] at h
    split at h
    · split at h
      · split at h
        · rename_i hc
          obtain ⟨-, hrest⟩ := hc
          subst hrest
          simp
        · cases h
      · split at h
        · split at h
          · split at h
            · rename_i hrest
              subst hrest
              simp
            · cases h
          · split at h
            · split at h
              · rename_i bs2 hrec
                have ih := decodeGroups_len rest bs2 hrec
                simp only [List.length_cons]
                omega
              · cases h
            · cases h
        · cases h
    · cases h

/-- The padding step of base64URLDecode, at the level of character lists. -/
theorem padded_data (s : String) :
    (if s.length % 4 = 2 then s ++ "==" else if s.length % 4 = 3 then s ++ "=" else s).data
      = s.data ++ padChars s.data.length := by
  rw [strLen]
  unfold padChars
  by_cases h2 : s.data.length % 4 = 2
  · rw [if_pos h2, if_pos h2, strData_append]
  · by_cases h3 : s.data.length % 4 = 3
    · rw [if_neg h2, if_neg h2, if_pos h3, if_pos h3, strData_append]
    · rw [if_neg h2, if_neg h2, if_neg h3, if_neg h3, List.append_nil]

/-- base64URLDecode in one normal form: append padding by length, then both
character translations, then the standard decoder. -/
theorem urlDecode_norm (s : String) :
    base64URLDecode s =
      base64StdDecodeString
        (String.mk
          (((s.data ++ padChars s.data.length).map fun c => if c = '-' then '+' else c).map
            fun c => if c = '_' then '/' else c)) := by
  simp only [base64URLDecode, goStrReplaceAll, mapStr, dataMk, padded_data]

/-- Both character translations leave every character other than the four
alphabet-translation characters alone, and translating the URL form first
changes nothing. -/
theorem transUrl (a : Char) :
    (fun c => if c = '_' then '/' else c)
        ((fun c => if c = '-' then '+' else c) (urlFromStd a)) =
      (fun c => if c = '_' then '/' else c) ((fun c => if c = '-' then '+' else c) a) := by
  by_cases h1 : a = '+'
  · subst h1
    decide
  · by_cases h2 : a = '/'
    · subst h2
      decide
    · simp [urlFromStd, h1, h2]

theorem mapTransUrl (l : List Char) :
    ((l.map urlFromStd).map fun c => if c = '-' then '+' else c).map
        (fun c => if c = '_' then '/' else c) =
      (l.map fun c => if c = '-' then '+' else c).map
        (fun c => if c = '_' then '/' else c) := by
  induction l with
  | nil => rfl
  | cons a as ih =>
    simp only [List.map_cons]
    rw [ih]
    congr 1
    exact transUrl a

/-- C10 amended: the decoder translates the URL-safe alphabet to the
standard one, so the url form of an input decodes like the input; '='
padding completing a multiple of 4 may be stripped without changing the
result; and an input of length 1 mod 4 never decodes, provided it contains
no carriage returns or newlines, which Go's standard decoder silently
skips (a segment containing them can decode even at length 1 mod 4). -/
theorem C10_amended :
    (∀ s : String, s.length % 4 = 1 → (∀ c ∈ s.data, c ≠ '\r' ∧ c ≠ '\n') →
      base64URLDecode s = none)
    ∧ (∀ s : String, base64URLDecode (mapStr urlFromStd s) = base64URLDecode s)
    ∧ (∀ (t : String) (k : Nat), k ≤ 2 → (t.length + k) % 4 = 0 →
      base64URLDecode (t ++ padStr k) = base64URLDecode t) := by
  refine ⟨?_, ?_, ?_⟩
  · intro s hlen hnl
    rw [strLen] at hlen
    rw [urlDecode_norm]
    have c2 : ¬ s.data.length % 4 = 2 := by omega
    have c3 : ¬ s.data.length % 4 = 3 := by omega
    have hpc : padChars s.data.length = [] := by
      unfold padChars
      rw [if_neg c2, if_neg c3]
    rw [hpc, List.append_nil]
    unfold base64StdDecodeString
    rw [dataMk]
    have hnone :
        decodeGroups
          (((s.data.map fun c => if c = '-' then '+' else c).map fun c =>
              if c = '_' then '/' else c).filter fun c => !(c == '\r' || c == '\n')) = none := by
      cases hdg :
          decodeGroups
            (((s.data.map fun c => if c = '-' then '+' else c).map fun c =>
                if c = '_' then '/' else c).filter fun c => !(c == '\r' || c == '\n')) with
      | none => rfl
      | some bs =>
        exfalso
        have h0 := decodeGroups_len _ bs hdg
        have hfilter :
            (((s.data.map fun c => if c = '-' then '+' else c).map fun c =>
                if c = '_' then '/' else c).filter fun c => !(c == '\r' || c == '\n')) =
              ((s.data.map fun c => if c = '-' then '+' else c).map fun c =>
                if c = '_' then '/' else c) := by
          rw [List.filter_eq_self]
          intro c hc
          simp only [List.mem_map] at hc
          obtain ⟨c1, ⟨c0, hc0, hmap0⟩, hmap1⟩ := hc
          obtain ⟨hr, hn⟩ := hnl c0 hc0
          subst hmap1
          subst hmap0
          by_cases h1 : c0 = '-'
          · simp [h1]
          · by_cases h2 : c0 = '_'
            · simp [h1, h2]
            · simp [h1, h2, hr, hn]
        rw [hfilter] at h0
        simp only [List.length_map] at h0
        omega
    rw [hnone]
  · intro s
    rw [urlDecode_norm, urlDecode_norm]
    refine congrArg (fun l => base64StdDecodeString (String.mk l)) ?_
    simp only [mapStr, dataMk, List.length_map, List.map_append]
    congr 1
    exact mapTransUrl s.data
  · intro t k hk hmod
    rw [strLen] at hmod
    rcases k with _ | _ | _ | k
    · have h00 : t ++ padStr 0 = t := by
        apply strExt
        rw [strData_append]
        simp [padStr, dataMk]
      rw [h00]
    · have hlt : t.data.length % 4 = 3 := by omega
      have hdata : (t ++ padStr 1).data = t.data ++ ['='] := by
        rw [strData_append]
        congr 1
      rw [urlDecode_norm, urlDecode_norm]
      refine congrArg (fun l => base64StdDecodeString (String.mk l)) ?_
      refine congrArg _ (congrArg _ ?_)
      rw [hdata]
      have e1 : ¬ (t.data ++ ['=']).length % 4 = 2 := by
        simp only [List.length_append, List.length_cons, List.length_nil]
        omega
      have e2 : ¬ (t.data ++ ['=']).length % 4 = 3 := by
        simp only [List.length_append, List.length_cons, List.length_nil]
        omega
      have e3 : ¬ t.data.length % 4 = 2 := by omega
      unfold padChars
      rw [if_neg e1, if_neg e2, if_neg e3, if_pos hlt, List.append_nil]
    · have hlt : t.data.length % 4 = 2 := by omega
      have hdata : (t ++ padStr 2).data = t.data ++ ['=', '='] := by
        rw [strData_append]
        congr 1
      rw [urlDecode_norm, urlDecode_norm]
      refine congrArg (fun l => base64StdDecodeString (String.mk l)) ?_
      refine congrArg _ (congrArg _ ?_)
      rw [hdata]
      have e1 : ¬ (t.data ++ ['=', '=']).length % 4 = 2 := by
        simp only [List.length_append, List.length_cons, List.length_nil]
        omega
      have e2 : ¬ (t.data ++ ['=', '=']).length % 4 = 3 := by
        simp only [List.length_append, List.length_cons, List.length_nil]
        omega
      unfold padChars
      rw [if_neg e1, if_neg e2, if_pos hlt, List.append_nil]
    · omega

/-- C10 as stated is refuted on the length-1-mod-4 sub-claim: a segment
containing a newline can decode although its length is 1 mod 4, because
Go's standard decoder ignores newlines. -/
theorem C10_counterexample :
    "QUJD\n".length % 4 = 1 ∧ base64URLDecode "QUJD\n" = some "ABC" := by
  refine ⟨by decide, by decide⟩

theorem C10_witness : base64URLDecode "QUJDE" = none :=
  C10_amended.1 "QUJDE" (by decide) (by decide)

/-! ## C9: wire-format round trip, stage 1 - base64 -/

theorem charLeIff (a b : Char) : (a ≤ b) ↔ a.toNat ≤ b.toNat := Iff.rfl

theorem charToNat_ofNat (n : Nat) (h : n < 55296) : (Char.ofNat n).toNat = n := by
  have hv : Nat.isValidChar n := Or.inl h
  simp [Char.ofNat, hv, Char.ofNatAux, Char.toNat, UInt32.toNat, BitVec.toNat_ofNatLt]

theorem charToNat_inj (a b : Char) (h : a.toNat = b.toNat) : a = b :=
  Char.le_antisymm ((charLeIff a b).mpr h.le) ((charLeIff b a).mpr h.ge)

theorem charOfNat_toNat (c : Char) (h : c.toNat < 55296) : Char.ofNat c.toNat = c :=
  charToNat_inj _ _ (charToNat_ofNat c.toNat h)

theorem b64RoundChar : ∀ v, v < 64 → b64CharVal (b64ValChar v) = some v := by decide

theorem b64CharSafe : ∀ v, v < 64 →
    b64ValChar v ≠ '=' ∧ b64ValChar v ≠ '\r' ∧ b64ValChar v ≠ '\n' := by decide

theorem b64TransChar : ∀ v, v < 64 →
    (fun c => if c = '_' then '/' else c)
        ((fun c => if c = '-' then '+' else c) (urlFromStd (b64ValChar v))) = b64ValChar v := by
  decide

theorem b64UrlNoDot : ∀ v, v < 64 → urlFromStd (b64ValChar v) ≠ '.' := by decide

theorem decode_encode : ∀ (bs : List Nat), (∀ b ∈ bs, b < 256) →
    decodeGroups (encodeGroups bs) = some bs
  | [], _ => rfl
  | [b1], h => by
    have hb1 : b1 < 256 := h b1 (by simp)
    have e1 := b64RoundChar (b1 / 4) (by omega)
    have e2 := b64RoundChar (b1 % 4 * 16) (by omega)
    simp only [encodeGroups, decodeGroups, e1, e2, and_self, if_true]
    have r1 : b1 / 4 * 4 + b1 % 4 * 16 / 16 = b1 := by omega
    rw [r1]
  | [b1, b2], h => by
    have hb1 : b1 < 256 := h b1 (by simp)
    have hb2 : b2 < 256 := h b2 (by simp)
    have e1 := b64RoundChar (b1 / 4) (by omega)
    have e2 := b64RoundChar (b1 % 4 * 16 + b2 / 16) (by omega)
    have e3 := b64RoundChar (b2 % 16 * 4) (by omega)
    have ne3 := (b64CharSafe (b2 % 16 * 4) (by omega)).1
    simp only [encodeGroups, decodeGroups, e1, e2, e3, if_true]
    have r1 : b1 / 4 * 4 + (b1 % 4 * 16 + b2 / 16) / 16 = b1 := by omega
    have r2 : (b1 % 4 * 16 + b2 / 16) % 16 * 16 + b2 % 16 * 4 / 4 = b2 := by omega
    rw [r1, r2, if_neg ne3]
  | b1 :: b2 :: b3 :: rest, h => by
    have hb1 : b1 < 256 := h b1 (by simp)
    have hb2 : b2 < 256 := h b2 (by simp)
    have hb3 : b3 < 256 := h b3 (by simp)
    have e1 := b64RoundChar (b1 / 4) (by omega)
    have e2 := b64RoundChar (b1 % 4 * 16 + b2 / 16) (by omega)
    have e3 := b64RoundChar (b2 % 16 * 4 + b3 / 64) (by omega)
    have e4 := b64RoundChar (b3 % 64) (by omega)
    have ne3 := (b64CharSafe (b2 % 16 * 4 + b3 / 64) (by omega)).1
    have ne4 := (b64CharSafe (b3 % 64) (by omega)).1
    have ih := decode_encode rest (fun b hb => h b (by simp [hb]))
    simp only [encodeGroups, decodeGroups, e1, e2, e3, e4]
    rw [if_neg ne3, if_neg ne4, ih]
    have r1 : b1 / 4 * 4 + (b1 % 4 * 16 + b2 / 16) / 16 = b1 := by omega
    have r2 : (b1 % 4 * 16 + b2 / 16) % 16 * 16 + (b2 % 16 * 4 + b3 / 64) / 4 = b2 := by omega
    have r3 : (b2 % 16 * 4 + b3 / 64) % 4 * 64 + b3 % 64 = b3 := by omega
    rw [r1, r2, r3]

theorem encChars : ∀ (bs : List Nat), (∀ b ∈ bs, b < 256) →
    ∀ c ∈ encodeGroups bs, (∃ v, v < 64 ∧ c = b64ValChar v) ∨ c = '='
  | [], _ => by simp [encodeGroups]
  | [b1], h => by
    have hb1 : b1 < 256 := h b1 (by simp)
    intro c hc
    simp only [encodeGroups, List.mem_cons, List.not_mem_nil, or_false] at hc
    rcases hc with rfl | rfl | rfl | rfl
    · exact Or.inl ⟨b1 / 4, by omega, rfl⟩
    · exact Or.inl ⟨b1 % 4 * 16, by omega, rfl⟩
    · exact Or.inr rfl
    · exact Or.inr rfl
  | [b1, b2], h => by
    have hb1 : b1 < 256 := h b1 (by simp)
    have hb2 : b2 < 256 := h b2 (by simp)
    intro c hc
    simp only [encodeGroups, List.mem_cons, List.not_mem_nil, or_false] at hc
    rcases hc with rfl | rfl | rfl | rfl
    · exact Or.inl ⟨b1 / 4, by omega, rfl⟩
    · exact Or.inl ⟨b1 % 4 * 16 + b2 / 16, by omega, rfl⟩
    · exact Or.inl ⟨b2 % 16 * 4, by omega, rfl⟩
    · exact Or.inr rfl
  | b1 :: b2 :: b3 :: rest, h => by
    have hb1 : b1 < 256 := h b1 (by simp)
    have hb2 : b2 < 256 := h b2 (by simp)
    have hb3 : b3 < 256 := h b3 (by simp)
    intro c hc
    simp only [encodeGroups, List.mem_cons] at hc
    rcases hc with rfl | rfl | rfl | rfl | hc
    · exact Or.inl ⟨b1 / 4, by omega, rfl⟩
    · exact Or.inl ⟨b1 % 4 * 16 + b2 / 16, by omega, rfl⟩
    · exact Or.inl ⟨b2 % 16 * 4 + b3 / 64, by omega, rfl⟩
    · exact Or.inl ⟨b3 % 64, by omega, rfl⟩
    · exact encChars rest (fun b hb => h b (by simp [hb])) c hc

theorem padChars_addFour (n : Nat) : padChars (n + 4) = padChars n := by
  unfold padChars
  rw [Nat.add_mod_right]

theorem encRepad : ∀ (bs : List Nat), (∀ b ∈ bs, b < 256) →
    ((encodeGroups bs).filter fun c => !(c == '=')) ++
      padChars ((encodeGroups bs).filter fun c => !(c == '=')).length = encodeGroups bs
  | [], _ => by simp [encodeGroups, padChars]
  | [b1], h => by
    have hb1 : b1 < 256 := h b1 (by simp)
    have hw : ((b64ValChar (b1 / 4) == '=') = false) :=
      beq_eq_false_iff_ne.mpr (b64CharSafe _ (by omega)).1
    have hx : ((b64ValChar (b1 % 4 * 16) == '=') = false) :=
      beq_eq_false_iff_ne.mpr (b64CharSafe _ (by omega)).1
    simp [encodeGroups, List.filter, hw, hx, padChars]
  | [b1, b2], h => by
    have hb1 : b1 < 256 := h b1 (by simp)
    have hb2 : b2 < 256 := h b2 (by simp)
    have hw : ((b64ValChar (b1 / 4) == '=') = false) :=
      beq_eq_false_iff_ne.mpr (b64CharSafe _ (by omega)).1
    have hx : ((b64ValChar (b1 % 4 * 16 + b2 / 16) == '=') = false) :=
      beq_eq_false_iff_ne.mpr (b64CharSafe _ (by omega)).1
    have hy : ((b64ValChar (b2 % 16 * 4) == '=') = false) :=
      beq_eq_false_iff_ne.mpr (b64CharSafe _ (by omega)).1
    simp [encodeGroups, List.filter, hw, hx, hy, padChars]
  | b1 :: b2 :: b3 :: rest, h => by
    have hb1 : b1 < 256 := h b1 (by simp)
    have hb2 : b2 < 256 := h b2 (by simp)
    have hb3 : b3 < 256 := h b3 (by simp)
    have hw : ((b64ValChar (b1 / 4) == '=') = false) :=
      beq_eq_false_iff_ne.mpr (b64CharSafe _ (by omega)).1
    have hx : ((b64ValChar (b1 % 4 * 16 + b2 / 16) == '=') = false) :=
      beq_eq_false_iff_ne.mpr (b64CharSafe _ (by omega)).1
    have hy : ((b64ValChar (b2 % 16 * 4 + b3 / 64) == '=') = false) :=
      beq_eq_false_iff_ne.mpr (b64CharSafe _ (by omega)).1
    have hz : ((b64ValChar (b3 % 64) == '=') = false) :=
      beq_eq_false_iff_ne.mpr (b64CharSafe _ (by omega)).1
    have ih := encRepad rest (fun b hb => h b (by simp [hb]))
    simp only [encodeGroups, List.filter_cons, hw, hx, hy, hz, Bool.not_false, if_pos,
      List.length_cons, List.cons_append]
    rw [show ((encodeGroups rest).filter fun c => !(c == '=')).length + 1 + 1 + 1 + 1 =
        ((encodeGroups rest).filter fun c => !(c == '=')).length + 4 from by omega]
    rw [padChars_addFour]
    rw [ih]

theorem padCharsTrans (n : Nat) :
    ((padChars n).map fun c => if c = '-' then '+' else c).map
      (fun c => if c = '_' then '/' else c) = padChars n := by
  unfold padChars
  split
  · rfl
  · split
    · rfl
    · rfl

/-- base64url decode inverts the spec-modelled base64url encoding on byte
sequences. -/
theorem urlRound (bs : List Nat) (h : ∀ b ∈ bs, b < 256) :
    base64URLDecode (base64URLEncode bs) = some (String.mk (bs.map Char.ofNat)) := by
  rw [urlDecode_norm]
  simp only [base64URLEncode, dataMk, List.length_map, List.map_append]
  have hF :
      ((((encodeGroups bs).filter fun c => !(c == '=')).map urlFromStd).map
          (fun c => if c = '-' then '+' else c)).map (fun c => if c = '_' then '/' else c) =
        (encodeGroups bs).filter fun c => !(c == '=') := by
    rw [List.map_map, List.map_map]
    have hid : ∀ c ∈ (encodeGroups bs).filter fun c => !(c == '='),
        (((fun c => if c = '_' then '/' else c) ∘ fun c => if c = '-' then '+' else c) ∘
          urlFromStd) c = c := by
      intro c hc
      have hmem := List.of_mem_filter hc
      have hch := encChars bs h c (List.mem_of_mem_filter hc)
      rcases hch with ⟨v, hv, rfl⟩ | rfl
      · exact b64TransChar v hv
      · simp at hmem
    calc ((encodeGroups bs).filter fun c => !(c == '=')).map
          (((fun c => if c = '_' then '/' else c) ∘ fun c => if c = '-' then '+' else c) ∘
            urlFromStd)
        = ((encodeGroups bs).filter fun c => !(c == '=')).map id := List.map_congr_left hid
      _ = (encodeGroups bs).filter fun c => !(c == '=') := List.map_id _
  rw [hF, padCharsTrans, encRepad bs h]
  unfold base64StdDecodeString
  rw [dataMk]
  have hfil : (encodeGroups bs).filter (fun c => !(c == '\r' || c == '\n')) = encodeGroups bs := by
    rw [List.filter_eq_self]
    intro c hc
    rcases encChars bs h c hc with ⟨v, hv, rfl⟩ | rfl
    · have h2 := (b64CharSafe v hv).2
      simp [beq_eq_false_iff_ne.mpr h2.1, beq_eq_false_iff_ne.mpr h2.2]
    · decide
  rw [hfil, decode_encode bs h]


/-! ## C9 stage 2: scalar parsing -/

theorem mkData (s : String) : String.mk s.data = s := rfl

theorem skipWs_noop (c : Char) (l : List Char) (h : jsonWs c = false) :
    skipWs (c :: l) = c :: l := by
  simp [skipWs, h]

theorem charDigitIff (c : Char) : ('0' ≤ c ∧ c ≤ '9') ↔ (48 ≤ c.toNat ∧ c.toNat ≤ 57) :=
  Iff.rfl

theorem charNineIff (c : Char) : ('1' ≤ c ∧ c ≤ '9') ↔ (49 ≤ c.toNat ∧ c.toNat ≤ 57) :=
  Iff.rfl

theorem escSafe (c : Char) (hc : safeChar c) : jsonEscapeChar c = [c] := by
  obtain ⟨h32, h126, hq, hbs⟩ := hc
  unfold jsonEscapeChar
  rw [if_neg hq, if_neg hbs, if_neg (by omega)]

theorem flatSafe : ∀ (l : List Char), (∀ c ∈ l, safeChar c) → l.flatMap jsonEscapeChar = l
  | [], _ => rfl
  | c :: l, h => by
    rw [List.flatMap_cons, escSafe c (h c (by simp)),
      flatSafe l (fun d hd => h d (by simp [hd]))]
    rfl

theorem jsonQuote_safe (s : String) (h : safeStr s) :
    jsonQuote s = '"' :: (s.data ++ ['"']) := by
  unfold jsonQuote
  rw [flatSafe s.data h]
  exact List.cons_append _ _ _

theorem psb_safe : ∀ (l rest : List Char), (∀ c ∈ l, safeChar c) →
    parseStringBody (l ++ '"' :: rest) = some (l, rest)
  | [], rest, _ => by
    show parseStringBody ('"' :: rest) = some ([], rest)
    unfold parseStringBody
    rw [if_pos rfl]
  | c :: l, rest, h => by
    obtain ⟨h32, h126, hq, hbs⟩ := h c (by simp)
    have ih := psb_safe l rest (fun d hd => h d (by simp [hd]))
    simp only [List.cons_append]
    unfold parseStringBody
    rw [if_neg hq, if_neg hbs, if_neg (show ¬ c.toNat < 32 by omega)]
    simp only [ih]

theorem digitsVal_append (ds : List Char) (c : Char) :
    digitsVal (ds ++ [c]) = digitsVal ds * 10 + (c.toNat - 48) := by
  unfold digitsVal
  rw [List.foldl_append]
  rfl

theorem headAppend (l l2 : List Char) (h : l ≠ []) : (l ++ l2).head? = l.head? := by
  cases l
  · exact absurd rfl h
  · rfl

theorem natDigits_ok : ∀ (fuel n : Nat), 0 < fuel → n < 10 ^ fuel →
    (∀ c ∈ natDigits fuel n, 48 ≤ c.toNat ∧ c.toNat ≤ 57)
    ∧ digitsVal (natDigits fuel n) = n
    ∧ natDigits fuel n ≠ []
    ∧ (1 ≤ n → ∀ c, (natDigits fuel n).head? = some c → c ≠ '0')
  | 0, _, hf, _ => absurd hf (by omega)
  | fuel + 1, n, _, hn => by
    have hdigitNat : ∀ m : Nat, m < 10 → (digitChar m).toNat = 48 + m := by
      intro m hm
      unfold digitChar
      exact charToNat_ofNat _ (by omega)
    by_cases h10 : n < 10
    · simp only [natDigits, if_pos h10]
      refine ⟨?_, ?_, by simp, ?_⟩
      · intro c hc
        simp only [List.mem_singleton] at hc
        subst hc
        rw [hdigitNat n h10]
        omega
      · unfold digitsVal
        simp only [List.foldl_cons, List.foldl_nil]
        rw [hdigitNat n h10]
        omega
      · intro hn1 c hc
        simp only [List.head?_cons] at hc
        cases hc
        intro heq
        have h0 := congrArg Char.toNat heq
        rw [hdigitNat n h10] at h0
        have h48 : ('0' : Char).toNat = 48 := rfl
        omega
    · have hrec0 : 0 < fuel := by
        by_contra hf
        have hf0 : fuel = 0 := by omega
        subst hf0
        rw [pow_one] at hn
        omega
      have hdiv : n / 10 < 10 ^ fuel := by
        have hmul : n < 10 ^ fuel * 10 := by
          rw [← pow_succ]
          exact hn
        omega
      obtain ⟨ihd, ihv, ihne, ihh⟩ := natDigits_ok fuel (n / 10) hrec0 hdiv
      simp only [natDigits, if_neg h10]
      refine ⟨?_, ?_, ?_, ?_⟩
      · intro c hc
        rcases List.mem_append.mp hc with hc | hc
        · exact ihd c hc
        · simp only [List.mem_singleton] at hc
          subst hc
          rw [hdigitNat (n % 10) (by omega)]
          omega
      · rw [digitsVal_append, ihv, hdigitNat (n % 10) (by omega)]
        omega
      · intro hcon
        exact ihne (List.append_eq_nil.mp hcon).1
      · intro _ c hc
        rw [headAppend _ _ ihne] at hc
        exact ihh (by omega) c hc

theorem natDecimal_ok (n : Nat) :
    (∀ c ∈ natDecimal n, 48 ≤ c.toNat ∧ c.toNat ≤ 57)
    ∧ digitsVal (natDecimal n) = n
    ∧ natDecimal n ≠ []
    ∧ (1 ≤ n → ∀ c, (natDecimal n).head? = some c → c ≠ '0') := by
  have hpow : n < 10 ^ (n + 1) :=
    lt_of_lt_of_le (Nat.lt_pow_self (by omega) n) (Nat.pow_le_pow_right (by omega) (by omega))
  exact natDigits_ok (n + 1) n (by omega) hpow

theorem takeDigits_all : ∀ (ds rest : List Char),
    (∀ c ∈ ds, 48 ≤ c.toNat ∧ c.toNat ≤ 57) →
    (∀ c, rest.head? = some c → ¬(48 ≤ c.toNat ∧ c.toNat ≤ 57)) →
    takeDigits (ds ++ rest) = (ds, rest)
  | [], rest, _, hrest => by
    cases rest with
    | nil => rfl
    | cons c r =>
      have hc := hrest c rfl
      simp only [List.nil_append, takeDigits]
      rw [if_neg (fun hcon => hc ((charDigitIff c).mp hcon))]
  | d :: ds, rest, hds, hrest => by
    have hd := hds d (by simp)
    have ih := takeDigits_all ds rest (fun c hc => hds c (by simp [hc])) hrest
    simp only [List.cons_append, takeDigits]
    rw [if_pos ((charDigitIff d).mpr hd)]
    simp only [List.append_eq]
    rw [ih]

theorem parseIntDec (n : Nat) (rest : List Char)
    (hrest : ∀ c, rest.head? = some c → ¬(48 ≤ c.toNat ∧ c.toNat ≤ 57)) :
    parseIntPart (natDecimal n ++ rest) = some (n, rest) := by
  obtain ⟨hdig, hval, hne, hhead⟩ := natDecimal_ok n
  by_cases h0 : n = 0
  · subst h0
    have hz : natDecimal 0 = ['0'] := rfl
    rw [hz]
    simp [parseIntPart]
  · obtain ⟨c, ds, hcons⟩ := List.exists_cons_of_ne_nil hne
    have hc : 48 ≤ c.toNat ∧ c.toNat ≤ 57 := hdig c (by rw [hcons]; simp)
    have hcne : c ≠ '0' := hhead (by omega) c (by rw [hcons]; rfl)
    have h48 : ('0' : Char).toNat = 48 := rfl
    have hc49 : 49 ≤ c.toNat := by
      rcases Nat.lt_or_ge c.toNat 49 with hlt | hge
      · exfalso
        apply hcne
        apply charToNat_inj
        omega
      · exact hge
    rw [hcons]
    simp only [List.cons_append, parseIntPart]
    rw [if_neg hcne, if_pos ((charNineIff c).mpr ⟨hc49, hc.2⟩)]
    rw [takeDigits_all ds rest (fun d hd => hdig d (by rw [hcons]; simp [hd])) hrest]
    have hv : digitsVal (c :: ds) = n := by
      rw [← hcons]
      exact hval
    rw [hv]

theorem headNotDigit (rest : List Char)
    (hhead : rest.head? = some ',' ∨ rest.head? = some rbrace) :
    ∀ c, rest.head? = some c → ¬(48 ≤ c.toNat ∧ c.toNat ≤ 57) := by
  intro c hc
  rcases hhead with h | h <;> rw [hc] at h <;> cases Option.some.inj h <;> decide

theorem fracNoop (rest : List Char)
    (hhead : rest.head? = some ',' ∨ rest.head? = some rbrace) :
    parseFracPart rest = some (false, rest) := by
  cases rest with
  | nil => simp at hhead
  | cons c r =>
    have hc : c = ',' ∨ c = rbrace := by
      rcases hhead with h | h
      · exact Or.inl (Option.some.inj h)
      · exact Or.inr (Option.some.inj h)
    have hne : c ≠ '.' := by rcases hc with rfl | rfl <;> decide
    simp only [parseFracPart]
    rw [if_neg hne]

theorem expNoop (rest : List Char)
    (hhead : rest.head? = some ',' ∨ rest.head? = some rbrace) :
    parseExpPart rest = some (false, rest) := by
  cases rest with
  | nil => simp at hhead
  | cons c r =>
    have hc : c = ',' ∨ c = rbrace := by
      rcases hhead with h | h
      · exact Or.inl (Option.some.inj h)
      · exact Or.inr (Option.some.inj h)
    have hne : ¬ (c = 'e' ∨ c = 'E') := by rcases hc with rfl | rfl <;> decide
    simp only [parseExpPart]
    rw [if_neg hne]

theorem digitHeadFacts (c : Char) (h : 48 ≤ c.toNat ∧ c.toNat ≤ 57) :
    jsonWs c = false ∧ c ≠ '"' ∧ c ≠ '-' ∧ ('0' ≤ c ∧ c ≤ '9') := by
  have hne : ∀ m : Nat, c.toNat ≠ m → ∀ d : Char, d.toNat = m → c ≠ d := by
    intro m hm d hd heq
    exact hm (by rw [heq, hd])
  refine ⟨?_, ?_, ?_, (charDigitIff c).mpr h⟩
  · unfold jsonWs
    have h1 : (c == ' ') = false := beq_eq_false_iff_ne.mpr (hne 32 (by omega) _ rfl)
    have h2 : (c == '\t') = false := beq_eq_false_iff_ne.mpr (hne 9 (by omega) _ rfl)
    have h3 : (c == '\n') = false := beq_eq_false_iff_ne.mpr (hne 10 (by omega) _ rfl)
    have h4 : (c == '\r') = false := beq_eq_false_iff_ne.mpr (hne 13 (by omega) _ rfl)
    rw [h1, h2, h3, h4]
    rfl
  · exact hne 34 (by omega) _ rfl
  · exact hne 45 (by omega) _ rfl

theorem parseVal_num (f : Nat) (v : Int) (rest : List Char)
    (hhead : rest.head? = some ',' ∨ rest.head? = some rbrace) :
    parseVal (f + 1) (intDecimal v ++ rest) = some (Json.num v true, rest) := by
  have hrestD := headNotDigit rest hhead
  by_cases hv : v < 0
  · simp only [intDecimal, if_pos hv, List.cons_append]
    simp only [parseVal, skipWs_noop '-' _ (by decide)]
    simp only [if_true]
    unfold parseNumber
    simp only [parseIntDec _ rest hrestD, fracNoop rest hhead, expNoop rest hhead]
    have hval : -(((-v).toNat : Int)) = v := by omega
    simp only [Bool.not_false, Bool.and_self, hval]
    rw [if_neg (show ('-' : Char) ≠ '"' by decide)]
    simp
  · simp only [intDecimal, if_neg hv]
    obtain ⟨hdig, hval, hne, hhd⟩ := natDecimal_ok v.toNat
    obtain ⟨c, ds, hcons⟩ := List.exists_cons_of_ne_nil hne
    have hc := hdig c (by rw [hcons]; simp)
    obtain ⟨hws, hnq, hnm, hdigit⟩ := digitHeadFacts c hc
    rw [hcons, List.cons_append]
    simp only [parseVal, skipWs_noop c _ hws]
    rw [if_neg hnq, if_neg hnm, if_pos hdigit]
    rw [← List.cons_append, ← hcons]
    unfold parseNumber
    simp only [parseIntDec _ rest hrestD, fracNoop rest hhead, expNoop rest hhead]
    have hvi : ((v.toNat : Nat) : Int) = v := by omega
    simp only [Bool.not_false, Bool.and_self, hvi]
    simp

theorem parseVal_str (f : Nat) (s : String) (rest : List Char) (h : safeStr s) :
    parseVal (f + 1) ('"' :: (s.data ++ '"' :: rest)) = some (Json.str s, rest) := by
  simp only [parseVal, skipWs_noop '"' _ (by decide)]
  simp only [if_true]
  simp only [psb_safe s.data rest h, mkData]

theorem parseVal_ser (f : Nat) (j : Json) (rest : List Char) (hok : serOk j)
    (hhead : rest.head? = some ',' ∨ rest.head? = some rbrace) :
    parseVal (f + 1) (serValue j ++ rest) = some (j, rest) := by
  cases j with
  | str s =>
    have hs : safeStr s := hok
    simp only [serValue]
    rw [jsonQuote_safe s hs]
    have hsh : ('"' :: (s.data ++ ['"'])) ++ rest = '"' :: (s.data ++ '"' :: rest) := by simp
    rw [hsh]
    exact parseVal_str f s rest hs
  | num v e =>
    have he : e = true := hok
    subst he
    simp only [serValue]
    exact parseVal_num f v rest hhead
  | null => exact hok.elim
  | bool b => exact hok.elim
  | arr xs => exact hok.elim
  | obj fs => exact hok.elim


/-! ## C9 stage 3: objects -/

theorem pm_last (f : Nat) (k : String) (vl rest2 : List Char) (j : Json) (hk : safeStr k)
    (hval : parseVal f vl = some (j, rbrace :: rest2)) :
    parseMembers (f + 1) ('"' :: (k.data ++ '"' :: ':' :: vl)) = some ([(k, j)], rest2) := by
  simp only [parseMembers, if_true]
  simp only [psb_safe k.data (':' :: vl) hk]
  simp only [skipWs_noop ':' _ (by decide), if_true]
  simp only [hval]
  simp only [skipWs_noop rbrace _ (by decide)]
  rw [if_neg (show rbrace ≠ ',' by decide)]
  simp only [if_true, mkData]

theorem pm_cons (f : Nat) (k : String) (vl m : List Char) (j : Json)
    (fs : List (String × Json)) (r : List Char) (hk : safeStr k)
    (hval : parseVal f vl = some (j, ',' :: '"' :: m))
    (hrest : parseMembers f ('"' :: m) = some (fs, r)) :
    parseMembers (f + 1) ('"' :: (k.data ++ '"' :: ':' :: vl)) = some ((k, j) :: fs, r) := by
  simp only [parseMembers, if_true]
  simp only [psb_safe k.data (':' :: vl) hk]
  simp only [skipWs_noop ':' _ (by decide), if_true]
  simp only [hval]
  simp only [skipWs_noop ',' _ (by decide), if_true]
  simp only [skipWs_noop '"' _ (by decide), if_true]
  simp only [hrest, mkData]

theorem membersChars_quote (k2 : String) (v2 : Json) (rest : List (String × Json))
    (hk2 : safeStr k2) : ∃ m, membersChars ((k2, v2) :: rest) = '"' :: m := by
  cases rest with
  | nil =>
    simp only [membersChars]
    rw [jsonQuote_safe _ hk2]
    exact ⟨_, List.cons_append _ _ _⟩
  | cons kv rest =>
    simp only [membersChars]
    rw [jsonQuote_safe _ hk2]
    exact ⟨_, List.cons_append _ _ _⟩

theorem parseMembers_ser : ∀ (fields : List (String × Json)) (f : Nat),
    (∀ kv ∈ fields, safeStr kv.1 ∧ serOk kv.2) → fields ≠ [] →
    parseMembers (f + 2 * fields.length) (membersChars fields) = some (fields, [])
  | [], _, _, hne => absurd rfl hne
  | [(k, v)], f, h, _ => by
    obtain ⟨hk, hv⟩ := h (k, v) (by simp)
    have hshape : membersChars [(k, v)] =
        '"' :: (k.data ++ '"' :: ':' :: (serValue v ++ [rbrace])) := by
      simp only [membersChars]
      rw [jsonQuote_safe k hk]
      simp
    rw [hshape]
    have hval := parseVal_ser f v [rbrace] hv (Or.inr rfl)
    exact pm_last (f + 1) k (serValue v ++ [rbrace]) [] v hk hval
  | (k, v) :: (k2, v2) :: rest, f, h, _ => by
    obtain ⟨hk, hv⟩ := h (k, v) (by simp)
    have htail : ∀ kv ∈ (k2, v2) :: rest, safeStr kv.1 ∧ serOk kv.2 :=
      fun kv hkv => h kv (by simp [hkv])
    have hk2 : safeStr k2 := (htail (k2, v2) (by simp)).1
    have hshape : membersChars ((k, v) :: (k2, v2) :: rest) =
        '"' :: (k.data ++ '"' :: ':' :: (serValue v ++ ',' :: membersChars ((k2, v2) :: rest))) := by
      simp only [membersChars]
      rw [jsonQuote_safe k hk]
      simp
    obtain ⟨m, hm⟩ := membersChars_quote k2 v2 rest hk2
    rw [hshape, hm]
    have hval := parseVal_ser (f + 2 * ((k2, v2) :: rest).length) v
      (',' :: ('"' :: m)) hv (Or.inl rfl)
    rw [show f + 2 * ((k2, v2) :: rest).length + 1 =
        f + 1 + 2 * ((k2, v2) :: rest).length from by omega] at hval
    have hrest := parseMembers_ser ((k2, v2) :: rest) (f + 1) htail (by simp)
    rw [hm] at hrest
    have hgoal := pm_cons (f + 1 + 2 * ((k2, v2) :: rest).length) k
      (serValue v ++ ',' :: ('"' :: m)) m v ((k2, v2) :: rest) [] hk hval hrest
    rw [show f + 2 * ((k, v) :: (k2, v2) :: rest).length =
        f + 1 + 2 * ((k2, v2) :: rest).length + 1 from by simp [List.length_cons]; omega]
    exact hgoal

/-! ## C9 stage 4: the full payload -/

theorem parseVal_objSer (f : Nat) (fields : List (String × Json))
    (h : ∀ kv ∈ fields, safeStr kv.1 ∧ serOk kv.2) (hne : fields ≠ []) :
    parseVal (f + 2 * fields.length + 1) (lbrace :: membersChars fields) =
      some (Json.obj fields, []) := by
  obtain ⟨⟨k, v⟩, tail, hft⟩ := List.exists_cons_of_ne_nil hne
  have hk : safeStr k := (h (k, v) (by rw [hft]; simp)).1
  obtain ⟨m, hm⟩ := membersChars_quote k v tail hk
  rw [← hft] at hm
  simp only [parseVal, skipWs_noop lbrace _ (by decide)]
  rw [if_neg (show lbrace ≠ '"' by decide), if_neg (show lbrace ≠ '-' by decide),
    if_neg (show ¬ ('0' ≤ lbrace ∧ lbrace ≤ '9') by decide),
    if_neg (show lbrace ≠ 't' by decide), if_neg (show lbrace ≠ 'f' by decide),
    if_neg (show lbrace ≠ 'n' by decide), if_neg (show lbrace ≠ '[' by decide)]
  simp only [if_true]
  rw [hm]
  simp only [skipWs_noop '"' _ (by decide)]
  rw [if_neg (show ('"' : Char) ≠ rbrace by decide)]
  rw [← hm]
  simp only [parseMembers_ser fields f h hne]

theorem payloadFields_ok (p : oidcTokenPayload) (hp : safePayload p) :
    ∀ kv ∈ payloadFields p, safeStr kv.1 ∧ serOk kv.2 := by
  obtain ⟨h1, h2, h3, h4, h5, h6, -, -⟩ := hp
  intro kv hkv
  simp only [payloadFields, List.mem_cons, List.not_mem_nil, or_false] at hkv
  rcases hkv with rfl | rfl | rfl | rfl | rfl | rfl | rfl | rfl
  · exact ⟨(by decide : safeStr "sub"), h1⟩
  · exact ⟨(by decide : safeStr "aud"), h2⟩
  · exact ⟨(by decide : safeStr "repository"), h3⟩
  · exact ⟨(by decide : safeStr "actor"), h4⟩
  · exact ⟨(by decide : safeStr "workflow"), h5⟩
  · exact ⟨(by decide : safeStr "ref"), h6⟩
  · exact ⟨(by decide : safeStr "exp"), rfl⟩
  · exact ⟨(by decide : safeStr "iat"), rfl⟩

theorem payloadChars_len (p : oidcTokenPayload) : 18 ≤ (payloadJsonChars p).length := by
  simp [payloadJsonChars, payloadFields, membersChars, serValue, jsonQuote,
    List.length_append, List.length_cons]
  omega

theorem jsonParse_payload (p : oidcTokenPayload) (hp : safePayload p) :
    jsonParse (String.mk (payloadJsonChars p)) = some (payloadJson p) := by
  unfold jsonParse
  rw [dataMk]
  have h8 : (payloadFields p).length = 8 := rfl
  have hlen := payloadChars_len p
  have hobj := parseVal_objSer ((payloadJsonChars p).length - 16) (payloadFields p)
    (payloadFields_ok p hp) (by simp [payloadFields])
  rw [h8] at hobj
  rw [show (payloadJsonChars p).length + 1 =
      (payloadJsonChars p).length - 16 + 2 * 8 + 1 from by omega]
  simp only [payloadJsonChars] at hobj ⊢
  simp only [hobj]
  simp [payloadJson, skipWs]

theorem payloadFromJson_round (p : oidcTokenPayload) (hexp : int64Range p.exp)
    (hiat : int64Range p.iat) : payloadFromJson (payloadJson p) = some p := by
  have hsub : strField (payloadFields p) "sub" = some p.sub := rfl
  have haud : strField (payloadFields p) "aud" = some p.aud := rfl
  have hrep : strField (payloadFields p) "repository" = some p.repository := rfl
  have hact : strField (payloadFields p) "actor" = some p.actor := rfl
  have hwork : strField (payloadFields p) "workflow" = some p.workflow := rfl
  have href : strField (payloadFields p) "ref" = some p.ref := rfl
  have hexp2 : intField (payloadFields p) "exp" = some p.exp := by
    unfold intField
    rw [show (payloadFields p).filter (fun kv => keyMatches kv.1 "exp") =
        [("exp", Json.num p.exp true)] from rfl]
    simp only [List.all_cons, List.all_nil, Bool.and_true, Bool.true_and]
    have hexp2 : -(2 ^ 63) ≤ p.exp ∧ p.exp < 2 ^ 63 := hexp
    rw [decide_eq_true hexp2]
    simp
  have hiat2 : intField (payloadFields p) "iat" = some p.iat := by
    unfold intField
    rw [show (payloadFields p).filter (fun kv => keyMatches kv.1 "iat") =
        [("iat", Json.num p.iat true)] from rfl]
    simp only [List.all_cons, List.all_nil, Bool.and_true, Bool.true_and]
    have hiat3 : -(2 ^ 63) ≤ p.iat ∧ p.iat < 2 ^ 63 := hiat
    rw [decide_eq_true hiat3]
    simp
  simp only [payloadJson, payloadFromJson]
  rw [hsub, haud, hrep, hact, hwork, href, hexp2, hiat2]
  rfl

/-! ## C9 stage 5: token splitting and assembly -/

theorem splitChars_noSep : ∀ (l : List Char), (∀ c ∈ l, c ≠ '.') → splitChars '.' l = [l]
  | [], _ => rfl
  | c :: l, h => by
    have hc : c ≠ '.' := h c (by simp)
    have ih := splitChars_noSep l (fun d hd => h d (by simp [hd]))
    simp only [splitChars]
    rw [if_neg hc]
    simp only [ih]

theorem splitChars_append : ∀ (l1 l2 : List Char), (∀ c ∈ l1, c ≠ '.') →
    splitChars '.' (l1 ++ '.' :: l2) = l1 :: splitChars '.' l2
  | [], l2, _ => by
    simp only [List.nil_append, splitChars]
    simp only [if_true]
  | c :: l1, l2, h => by
    have hc : c ≠ '.' := h c (by simp)
    have ih := splitChars_append l1 l2 (fun d hd => h d (by simp [hd]))
    simp only [List.cons_append, splitChars, List.append_eq]
    rw [if_neg hc]
    rw [ih]

theorem b64url_noDot (bs : List Nat) (h : ∀ b ∈ bs, b < 256) :
    ∀ c ∈ (base64URLEncode bs).data, c ≠ '.' := by
  intro c hc
  simp only [base64URLEncode, dataMk, List.mem_map] at hc
  obtain ⟨c0, hc0, rfl⟩ := hc
  rcases encChars bs h c0 (List.mem_of_mem_filter hc0) with ⟨v, hv, rfl⟩ | rfl
  · exact b64UrlNoDot v hv
  · have := List.of_mem_filter hc0
    simp at this

theorem jsonQuote_lt256 (s : String) (hs : safeStr s) :
    ∀ c ∈ jsonQuote s, c.toNat < 256 := by
  rw [jsonQuote_safe s hs]
  intro c hc
  simp only [List.mem_cons, List.mem_append, List.mem_singleton,
    List.not_mem_nil, or_false] at hc
  rcases hc with rfl | hc | rfl
  · decide
  · obtain ⟨h1, h2, -, -⟩ := hs c hc
    omega
  · decide

theorem intDecimal_lt256 (v : Int) : ∀ c ∈ intDecimal v, c.toNat < 256 := by
  intro c hc
  unfold intDecimal at hc
  split at hc
  · rcases List.mem_cons.mp hc with rfl | hc
    · decide
    · have := (natDecimal_ok _).1 c hc
      omega
  · have := (natDecimal_ok _).1 c hc
    omega

theorem serValue_lt256 (j : Json) (hok : serOk j) : ∀ c ∈ serValue j, c.toNat < 256 := by
  cases j with
  | str s => exact jsonQuote_lt256 s hok
  | num v e => exact intDecimal_lt256 v
  | null => exact hok.elim
  | bool b => exact hok.elim
  | arr xs => exact hok.elim
  | obj fs => exact hok.elim

theorem membersChars_lt256 : ∀ (fields : List (String × Json)),
    (∀ kv ∈ fields, safeStr kv.1 ∧ serOk kv.2) →
    ∀ c ∈ membersChars fields, c.toNat < 256
  | [], _ => by
    intro c hc
    simp only [membersChars, List.mem_singleton] at hc
    subst hc
    decide
  | [(k, v)], h => by
    obtain ⟨hk, hv⟩ := h (k, v) (by simp)
    intro c hc
    simp only [membersChars, List.mem_append, List.mem_cons, List.mem_singleton,
      List.not_mem_nil, or_false] at hc
    rcases hc with hc | rfl | hc | rfl
    · exact jsonQuote_lt256 k hk c hc
    · decide
    · exact serValue_lt256 v hv c hc
    · decide
  | (k, v) :: kv2 :: rest, h => by
    obtain ⟨hk, hv⟩ := h (k, v) (by simp)
    have ih := membersChars_lt256 (kv2 :: rest) (fun kv hkv => h kv (by simp [hkv]))
    intro c hc
    simp only [membersChars, List.mem_append, List.mem_cons, List.mem_singleton,
      List.not_mem_nil, or_false] at hc
    rcases hc with hc | rfl | hc | rfl | hc
    · exact jsonQuote_lt256 k hk c hc
    · decide
    · exact serValue_lt256 v hv c hc
    · decide
    · exact ih c hc

theorem payloadChars_lt256 (p : oidcTokenPayload) (hp : safePayload p) :
    ∀ c ∈ payloadJsonChars p, c.toNat < 256 := by
  intro c hc
  simp only [payloadJsonChars, List.mem_cons] at hc
  rcases hc with rfl | hc
  · decide
  · exact membersChars_lt256 (payloadFields p) (payloadFields_ok p hp) c hc

/-- C9: decoding inverts the spec-modelled wire encoding: a three-segment
token whose middle segment carries a base64url-encoded ClaimsPayload
decodes to that payload, field for field. The payload's strings must be
escape-free printable ASCII and its timestamps within int64, where the
byte-level string model is exact. -/
theorem C9_thm : ∀ (p : oidcTokenPayload) (hd sg : String),
    safePayload p → (∀ c ∈ hd.data, c ≠ '.') → (∀ c ∈ sg.data, c ≠ '.') →
    decodeOIDCToken (hd ++ "." ++ encodeClaimsSegment p ++ "." ++ sg) = Except.ok p := by
  intro p hd sg hp hhd hsg
  have hbytes : ∀ b ∈ (payloadJsonChars p).map Char.toNat, b < 256 := by
    intro b hb
    simp only [List.mem_map] at hb
    obtain ⟨c, hc, rfl⟩ := hb
    exact payloadChars_lt256 p hp c hc
  have hdot : (("." : String)).data = ['.'] := rfl
  have hdata : (hd ++ "." ++ encodeClaimsSegment p ++ "." ++ sg).data =
      hd.data ++ '.' :: ((encodeClaimsSegment p).data ++ '.' :: sg.data) := by
    simp [strData_append, hdot, List.append_assoc]
  have hsegDot : ∀ c ∈ (encodeClaimsSegment p).data, c ≠ '.' := by
    simp only [encodeClaimsSegment]
    exact b64url_noDot _ hbytes
  unfold decodeOIDCToken goSplit
  rw [hdata, splitChars_append hd.data _ hhd, splitChars_append _ _ hsegDot,
    splitChars_noSep sg.data hsg]
  simp only [List.map_cons, List.map_nil, mkData]
  have hmapmap : ((payloadJsonChars p).map Char.toNat).map Char.ofNat = payloadJsonChars p := by
    rw [List.map_map]
    calc (payloadJsonChars p).map (Char.ofNat ∘ Char.toNat)
        = (payloadJsonChars p).map id := by
          refine List.map_congr_left ?_
          intro c hc
          have := payloadChars_lt256 p hp c hc
          exact charOfNat_toNat c (by omega)
      _ = payloadJsonChars p := List.map_id _
  have hdec : base64URLDecode (encodeClaimsSegment p) =
      some (String.mk (payloadJsonChars p)) := by
    simp only [encodeClaimsSegment]
    rw [urlRound _ hbytes, hmapmap]
  simp only [hdec]
  simp only [jsonParse_payload p hp]
  rw [payloadFromJson_round p hp.2.2.2.2.2.2.1 hp.2.2.2.2.2.2.2]

theorem C9_witness :
    decodeOIDCToken ("h." ++ encodeClaimsSegment pFresh ++ ".sig") = Except.ok pFresh :=
  C9_thm pFresh "h" "sig" (by decide) (by decide) (by decide)


end GithubAuth
